import Mathlib

/-!
# Verification of the Silicon-Trace ingestion & reconciliation engine

Shallow embedding of `src/backend/parser.py` and
`src/backend/column_classifier.py`.  Strings are modelled as `List Char`
restricted to the character operations the code performs (ASCII case
mapping, whitespace stripping, substring search).  Python `re` patterns
are embedded as structural matchers on character lists.  Floating-point
ratio comparisons (`alnum_ratio > 0.8`) are embedded as exact rational
comparisons (`5 * count > 4 * len`), which agree with the float
comparison for every input of realistic length.  Scalar cells are
modelled as strings (`clean_value` results), with `none` for missing
(NaN) cells.
-/

set_option maxHeartbeats 1000000

namespace SiliconTrace

abbrev Str := List Char

/-- ASCII whitespace, the characters Python's `str.strip`/`\s` treat as
whitespace for ASCII text. -/
def isWs (c : Char) : Bool :=
  c = ' ' || c = '\t' || c = '\n' || c = '\r' || c = Char.ofNat 11 || c = Char.ofNat 12

/-- `str.strip()`: drop leading and trailing whitespace. -/
def stripWs (s : Str) : Str :=
  ((s.dropWhile isWs).reverse.dropWhile isWs).reverse

/-- ASCII `str.lower()` (the keyword tables compared against are ASCII). -/
def lowerC (c : Char) : Char :=
  if 'A' ≤ c ∧ c ≤ 'Z' then Char.ofNat (c.toNat + 32) else c

/-- ASCII `str.upper()`. -/
def upperC (c : Char) : Char :=
  if 'a' ≤ c ∧ c ≤ 'z' then Char.ofNat (c.toNat - 32) else c

def lowerS (s : Str) : Str := s.map lowerC
def upperS (s : Str) : Str := s.map upperC

/-- `[0-9]` character class. -/
def isDigitC (c : Char) : Bool := '0' ≤ c && c ≤ '9'

/-- `[A-Z0-9]` character class (the serial patterns are compiled without
`re.IGNORECASE`). -/
def isUpperAlnum (c : Char) : Bool := isDigitC c || ('A' ≤ c && c ≤ 'Z')

/-- Python `str.isalnum` restricted to ASCII. -/
def isAlnumC (c : Char) : Bool :=
  isDigitC c || ('A' ≤ c && c ≤ 'Z') || ('a' ≤ c && c ≤ 'z')

/-- Consume exactly `n` characters satisfying `p`, returning the rest. -/
def matchClass (p : Char → Bool) : Nat → Str → Option Str
  | 0, s => some s
  | _ + 1, [] => none
  | n + 1, c :: s => if p c then matchClass p n s else none

/-- Consume one literal character. -/
def matchLit (ch : Char) : Str → Option Str
  | [] => none
  | c :: s => if c = ch then some s else none

/-- `AMD_CPU_SERIAL_PATTERN = re.compile(r'^[0-9][A-Z0-9]{11}_\d{3}-\d{12}$')`
(parser.py line 23): full-anchored strict serial format. -/
def matchesStrictSerial (s : Str) : Bool :=
  (((((matchClass isDigitC 1 s).bind
      (matchClass isUpperAlnum 11)).bind
      (matchLit '_')).bind
      (matchClass isDigitC 3)).bind
      (matchLit '-')).bind
      (matchClass isDigitC 12) = some []

/-- `re.compile(r'^[0-9][A-Z0-9]{9,}')` applied with `re.match` (anchored at
the start, no end anchor): a digit followed by at least 9 `[A-Z0-9]`
characters (parser.py line 44). -/
def flexMatchHere (s : Str) : Bool :=
  match s with
  | [] => false
  | c :: rest => isDigitC c && 9 ≤ (rest.takeWhile isUpperAlnum).length

/-- `is_valid_amd_cpu_serial` (parser.py lines 29-45): strip, then match the
flexible prefix pattern. -/
def is_valid_amd_cpu_serial (serial : Str) : Bool :=
  -- `if not serial or not isinstance(serial, str): return False`
  if serial = [] then false
  else flexMatchHere (stripWs serial)

/-- `AMD_CPU_SERIAL_SEARCH_PATTERN.search(word)` (parser.py line 27): the
pattern `[0-9][A-Z0-9]{9,}(?:_\d{3}(?:-\d{1,12})?)?` is searchable at some
position iff a digit is followed there by at least 9 `[A-Z0-9]` characters
(the suffix group is optional, so it never affects matchability). -/
def amdSearchHit : Str → Bool
  | [] => false
  | c :: rest =>
    (isDigitC c && 9 ≤ (rest.takeWhile isUpperAlnum).length) || amdSearchHit rest

/-- Delimiter class of `re.split(r'[\s,;\n\t]+', ...)` (parser.py line 162). -/
def isDelim (c : Char) : Bool := isWs c || c = ',' || c = ';'

/-- Character-by-character splitter.  `re.split` with `+` collapses runs of
delimiters into one cut; splitting at every delimiter instead yields the
same chunks plus extra empty chunks, and every consumer below skips chunks
shorter than 10 characters, so the two agree on all observable behaviour. -/
def pySplit (p : Char → Bool) : Str → List Str
  | [] => [[]]
  | c :: s =>
    match pySplit p s with
    | [] => [[]]
    | w :: ws => if p c then [] :: w :: ws else (c :: w) :: ws

/-- The token scoring system of `extract_best_serial_from_text`
(parser.py lines 171-197).  The float comparison `alnum_ratio > 0.8` is
embedded exactly as `5 * alnumCount > 4 * length`. -/
def wordScore (w : Str) : Nat :=
  (if w.head? = some '9' then 30 else 0) +
  (if '_' ∈ w then 20 else 0) +
  (if '-' ∈ w then 10 else 0) +
  (if 13 ≤ w.length ∧ w.length ≤ 35 then 10 else 0) +
  (if 4 * w.length < 5 * (w.countP isAlnumC) then 10 else 0) +
  (if amdSearchHit w then 30 else 0)

/-- The best-word selection loop (parser.py lines 167-201): words shorter
than 10 characters are skipped; a word replaces the current best only when
its score is strictly greater. -/
def extractLoop : List Str → Option Str × Nat → Option Str × Nat
  | [], acc => acc
  | w :: ws, (bw, bs) =>
    if w.length < 10 then extractLoop ws (bw, bs)
    else
      let sc := wordScore w
      if bs < sc then extractLoop ws (some w, sc) else extractLoop ws (bw, bs)

/-- `extract_best_serial_from_text` (parser.py lines 146-207). -/
def extract_best_serial_from_text (text : Str) : Option Str :=
  -- `if not text or not isinstance(text, str): return None`
  if text = [] then none
  else
    let words := pySplit isDelim (stripWs text)
    let best := extractLoop words (none, 0)
    if 40 ≤ best.2 then best.1 else none

/-! ## Character-class facts -/

theorem delim_false_of_pred {p : Char → Bool}
    (hp : p ' ' = false ∧ p '\t' = false ∧ p '\n' = false ∧ p '\r' = false ∧
      p (Char.ofNat 11) = false ∧ p (Char.ofNat 12) = false ∧ p ',' = false ∧ p ';' = false)
    {c : Char} (h : p c = true) : isDelim c = false := by
  cases hd : isDelim c with
  | false => rfl
  | true =>
    exfalso
    simp only [isDelim, isWs, Bool.or_eq_true, decide_eq_true_eq, or_assoc] at hd
    obtain ⟨hp1, hp2, hp3, hp4, hp5, hp6, hp7, hp8⟩ := hp
    rcases hd with h1 | h1 | h1 | h1 | h1 | h1 | h1 | h1 <;> subst h1 <;> simp_all

theorem not_delim_of_digit {c : Char} (h : isDigitC c = true) : isDelim c = false :=
  delim_false_of_pred (by decide) h

theorem not_delim_of_upperAlnum {c : Char} (h : isUpperAlnum c = true) : isDelim c = false :=
  delim_false_of_pred (by decide) h

theorem not_ws_of_not_delim {c : Char} (h : isDelim c = false) : isWs c = false := by
  cases hw : isWs c with
  | false => rfl
  | true => simp [isDelim, hw] at h

theorem alnum_of_upperAlnum {c : Char} (h : isUpperAlnum c = true) : isAlnumC c = true := by
  simp only [isUpperAlnum, Bool.or_eq_true] at h
  simp only [isAlnumC, Bool.or_eq_true]
  tauto

theorem alnum_of_digit {c : Char} (h : isDigitC c = true) : isAlnumC c = true := by
  simp only [isAlnumC, Bool.or_eq_true]
  tauto

/-! ## Pattern-matcher decomposition -/

theorem matchClass_some {p : Char → Bool} :
    ∀ {n : Nat} {s r : Str}, matchClass p n s = some r →
      ∃ pre, s = pre ++ r ∧ pre.length = n ∧ ∀ c ∈ pre, p c = true := by
  intro n
  induction n with
  | zero =>
    intro s r h
    simp only [matchClass, Option.some.injEq] at h
    exact ⟨[], by simp [h], rfl, by simp⟩
  | succ n ih =>
    intro s r h
    match s with
    | [] => simp [matchClass] at h
    | c :: s =>
      simp only [matchClass] at h
      split at h
      · obtain ⟨pre, hpre, hlen, hall⟩ := ih h
        refine ⟨c :: pre, by simp [hpre], by simp [hlen], ?_⟩
        intro x hx
        rcases List.mem_cons.mp hx with rfl | hx
        · assumption
        · exact hall x hx
      · exact absurd h (by simp)

theorem matchLit_some {ch : Char} : ∀ {s r : Str}, matchLit ch s = some r → s = ch :: r := by
  intro s r h
  match s with
  | [] => simp [matchLit] at h
  | c :: s =>
    simp only [matchLit] at h
    split at h
    · simp_all
    · exact absurd h (by simp)

/-- Structural decomposition of a string accepted by the strict serial
pattern. -/
theorem strict_decomp {s : Str} (h : matchesStrictSerial s = true) :
    ∃ d a t n, s = d :: (a ++ '_' :: (t ++ '-' :: n)) ∧ isDigitC d = true ∧
      a.length = 11 ∧ (∀ c ∈ a, isUpperAlnum c = true) ∧
      t.length = 3 ∧ (∀ c ∈ t, isDigitC c = true) ∧
      n.length = 12 ∧ (∀ c ∈ n, isDigitC c = true) := by
  have h0 : (((((matchClass isDigitC 1 s).bind
      (matchClass isUpperAlnum 11)).bind (matchLit '_')).bind
      (matchClass isDigitC 3)).bind (matchLit '-')).bind
      (matchClass isDigitC 12) = some [] := by
    simpa [matchesStrictSerial] using h
  rw [Option.bind_eq_some] at h0
  obtain ⟨s5, h5, hn⟩ := h0
  rw [Option.bind_eq_some] at h5
  obtain ⟨s4, h4, hdash⟩ := h5
  rw [Option.bind_eq_some] at h4
  obtain ⟨s3, h3, ht⟩ := h4
  rw [Option.bind_eq_some] at h3
  obtain ⟨s2, h2, hus⟩ := h3
  rw [Option.bind_eq_some] at h2
  obtain ⟨s1, h1, ha⟩ := h2
  obtain ⟨predd, hd_eq, hd_len, hd_all⟩ := matchClass_some h1
  obtain ⟨a, ha_eq, ha_len, ha_all⟩ := matchClass_some ha
  have hus_eq := matchLit_some hus
  obtain ⟨t, ht_eq, ht_len, ht_all⟩ := matchClass_some ht
  have hdash_eq := matchLit_some hdash
  obtain ⟨n, hn_eq, hn_len, hn_all⟩ := matchClass_some hn
  obtain ⟨d, rfl⟩ := List.length_eq_one.mp hd_len
  refine ⟨d, a, t, n, ?_, hd_all d (by simp), ha_len, ha_all, ht_len, ht_all, hn_len, ?_⟩
  · rw [hd_eq, ha_eq, hus_eq, ht_eq, hdash_eq, hn_eq]
    simp
  · intro c hc
    exact hn_all c (by simp [hn_eq, hc])

/-! ## Strip and split lemmas -/

theorem dropWhile_eq_self_of_all {p : Char → Bool} {s : Str}
    (h : ∀ c ∈ s, p c = false) : s.dropWhile p = s := by
  match s with
  | [] => rfl
  | c :: t => exact List.dropWhile_cons_of_neg (by simp [h c (by simp)])

theorem stripWs_eq_self_of_all {s : Str} (h : ∀ c ∈ s, isWs c = false) :
    stripWs s = s := by
  unfold stripWs
  rw [dropWhile_eq_self_of_all h,
    dropWhile_eq_self_of_all (by simp only [List.mem_reverse]; exact h),
    List.reverse_reverse]

theorem pySplit_ne_nil {p : Char → Bool} (s : Str) : pySplit p s ≠ [] := by
  match s with
  | [] => simp [pySplit]
  | c :: t =>
    rcases hs : pySplit p t with _ | ⟨w, ws⟩
    · simp [pySplit, hs]
    · simp only [pySplit, hs]
      split <;> simp

theorem pySplit_no_delim {p : Char → Bool} {s : Str}
    (h : ∀ c ∈ s, p c = false) : pySplit p s = [s] := by
  induction s with
  | nil => rfl
  | cons c t ih =>
    have ht : pySplit p t = [t] := ih fun x hx => h x (by simp [hx])
    simp [pySplit, ht, h c (by simp)]

theorem pySplit_append_front {p : Char → Bool} {s : Str} {d : Char} (rest : Str)
    (hs : ∀ c ∈ s, p c = false) (hd : p d = true) :
    pySplit p (s ++ d :: rest) = s :: pySplit p rest := by
  induction s with
  | nil =>
    rcases hr : pySplit p rest with _ | ⟨w, ws⟩
    · exact absurd hr (pySplit_ne_nil rest)
    · simp [pySplit, hr, hd]
  | cons c t ih =>
    have ht := ih fun x hx => hs x (by simp [hx])
    have hc : p c = false := hs c (by simp)
    show pySplit p (c :: (t ++ d :: rest)) = (c :: t) :: pySplit p rest
    simp only [pySplit, ht, hc]
    simp

theorem pySplit_append_delims {p : Char → Bool} {ds : Str} (s : Str)
    (h : ∀ c ∈ ds, p c = true) :
    pySplit p (s ++ ds) = pySplit p s ++ List.replicate ds.length [] := by
  induction ds generalizing s with
  | nil => simp
  | cons d ds ih =>
    have hone : ∀ u : Str, pySplit p (u ++ [d]) = pySplit p u ++ [[]] := by
      intro u
      induction u with
      | nil => simp [pySplit, h d (by simp)]
      | cons c t iht =>
        rcases hb : pySplit p t with _ | ⟨w0, ws0⟩
        · exact absurd hb (pySplit_ne_nil _)
        · show pySplit p (c :: (t ++ [d])) = pySplit p (c :: t) ++ [[]]
          simp only [pySplit, iht, hb]
          by_cases hc : p c = true <;> simp [hc]
    have hsplit : s ++ d :: ds = (s ++ [d]) ++ ds := by simp
    rw [hsplit, ih (s ++ [d]) (fun c hc => h c (by simp [hc])), hone s]
    simp [List.replicate_succ]

/-! ## Score facts for strict serials -/

theorem delim_of_ws {c : Char} (h : isWs c = true) : isDelim c = true := by
  simp [isDelim, h]

theorem strict_facts {S : Str} (h : matchesStrictSerial S = true) :
    S.length = 29 ∧ (∀ c ∈ S, isDelim c = false) ∧ 80 ≤ wordScore S := by
  obtain ⟨d, a, t, n, rfl, hd, ha_len, ha_all, ht_len, ht_all, hn_len, hn_all⟩ :=
    strict_decomp h
  have hlen : (d :: (a ++ '_' :: (t ++ '-' :: n))).length = 29 := by
    simp [ha_len, ht_len, hn_len]
  refine ⟨hlen, ?_, ?_⟩
  · intro c hc
    rcases List.mem_cons.mp hc with rfl | hc
    · exact not_delim_of_digit hd
    · rcases List.mem_append.mp hc with hc | hc
      · exact not_delim_of_upperAlnum (ha_all c hc)
      · rcases List.mem_cons.mp hc with rfl | hc
        · decide
        · rcases List.mem_append.mp hc with hc | hc
          · exact not_delim_of_digit (ht_all c hc)
          · rcases List.mem_cons.mp hc with rfl | hc
            · decide
            · exact not_delim_of_digit (hn_all c hc)
  · have h_us : '_' ∈ d :: (a ++ '_' :: (t ++ '-' :: n)) := by simp
    have h_dash : '-' ∈ d :: (a ++ '_' :: (t ++ '-' :: n)) := by simp
    have hlen_cond : 13 ≤ (d :: (a ++ '_' :: (t ++ '-' :: n))).length ∧
        (d :: (a ++ '_' :: (t ++ '-' :: n))).length ≤ 35 := by omega
    have hca : a.countP isAlnumC = 11 := by
      rw [List.countP_eq_length.mpr fun c hc => alnum_of_upperAlnum (ha_all c hc)]
      exact ha_len
    have hct : t.countP isAlnumC = 3 := by
      rw [List.countP_eq_length.mpr fun c hc => alnum_of_digit (ht_all c hc)]
      exact ht_len
    have hcn : n.countP isAlnumC = 12 := by
      rw [List.countP_eq_length.mpr fun c hc => alnum_of_digit (hn_all c hc)]
      exact hn_len
    have hcount : (d :: (a ++ '_' :: (t ++ '-' :: n))).countP isAlnumC = 27 := by
      have hu : isAlnumC '_' = false := by decide
      have hh : isAlnumC '-' = false := by decide
      simp [List.countP_cons, List.countP_append, hca, hct, hcn, alnum_of_digit hd, hu, hh]
    have hratio : 4 * (d :: (a ++ '_' :: (t ++ '-' :: n))).length <
        5 * (d :: (a ++ '_' :: (t ++ '-' :: n))).countP isAlnumC := by
      rw [hlen, hcount]
      omega
    have hsearch : amdSearchHit (d :: (a ++ '_' :: (t ++ '-' :: n))) = true := by
      have htw : (a ++ '_' :: (t ++ '-' :: n)).takeWhile isUpperAlnum = a := by
        rw [List.takeWhile_append_of_pos ha_all,
          List.takeWhile_cons_of_neg (by decide), List.append_nil]
      simp only [amdSearchHit, Bool.or_eq_true, Bool.and_eq_true]
      exact Or.inl ⟨hd, by simp [htw, ha_len]⟩
    have heq : wordScore (d :: (a ++ '_' :: (t ++ '-' :: n))) =
        (if (d :: (a ++ '_' :: (t ++ '-' :: n))).head? = some '9' then 30 else 0) +
          20 + 10 + 10 + 10 + 30 := by
      rw [wordScore, if_pos h_us, if_pos h_dash, if_pos hlen_cond, if_pos hratio,
        if_pos hsearch]
    rw [heq]
    split <;> omega

theorem dropWhile_head_false {p : Char → Bool} :
    ∀ {l : Str} {c : Char} {t : Str}, l.dropWhile p = c :: t → p c = false := by
  intro l
  induction l with
  | nil => intro c t h; simp at h
  | cons a l ih =>
    intro c t h
    by_cases hp : p a = true
    · exact ih (by rwa [List.dropWhile_cons_of_pos hp] at h)
    · rw [List.dropWhile_cons_of_neg (by simpa using hp)] at h
      obtain ⟨rfl, rfl⟩ : a = c ∧ l = t := by simp_all
      simpa using hp

theorem extractLoop_keep {ws : List Str} {bw : Option Str} {bs : Nat}
    (h : ∀ w ∈ ws, wordScore w ≤ bs) : extractLoop ws (bw, bs) = (bw, bs) := by
  induction ws with
  | nil => rfl
  | cons w ws ih =>
    simp only [extractLoop]
    by_cases hl : w.length < 10
    · rw [if_pos hl]
      exact ih fun x hx => h x (by simp [hx])
    · rw [if_neg hl, if_neg (by have := h w (by simp); omega)]
      exact ih fun x hx => h x (by simp [hx])

/-- Shared core of the extraction theorems: when the token list of the
stripped text starts with a strict serial and every later token scores no
higher, the loop keeps the serial and the threshold accepts it. -/
theorem extract_core {T S : Str} {rest : List Str} (hlen : S.length = 29)
    (hsc : 80 ≤ wordScore S) (hT : ¬ T = [])
    (hsplit : pySplit isDelim (stripWs T) = S :: rest)
    (hrest : ∀ w ∈ rest, wordScore w ≤ wordScore S) :
    extract_best_serial_from_text T = some S := by
  unfold extract_best_serial_from_text
  rw [if_neg hT]
  simp only [hsplit]
  have h10 : ¬ S.length < 10 := by omega
  have hloop : extractLoop (S :: rest) (none, 0) = (some S, wordScore S) := by
    simp only [extractLoop, if_neg h10, if_pos (by omega : 0 < wordScore S)]
    exact extractLoop_keep hrest
  rw [hloop]
  simp only []
  rw [if_pos (by simpa using by omega : 40 ≤ (some S, wordScore S).2)]

/-- Extraction is the identity on strict serials (part 1 of the testable
property). -/
theorem extract_strict_id {S : Str} (h : matchesStrictSerial S = true) :
    extract_best_serial_from_text S = some S := by
  obtain ⟨hlen, hnd, hsc⟩ := strict_facts h
  have hT : ¬ S = [] := by intro e; rw [e] at hlen; simp at hlen
  have hstrip : stripWs S = S :=
    stripWs_eq_self_of_all fun c hc => not_ws_of_not_delim (hnd c hc)
  exact extract_core hlen hsc hT (by rw [hstrip]; exact pySplit_no_delim hnd) (by simp)

/-- Extraction picks the serial out of a strict serial followed by noise
whose tokens all score below the acceptance threshold (part 2). -/
theorem extract_strict_with_noise {S noise : Str} (hS : matchesStrictSerial S = true)
    (hn : ∀ w ∈ pySplit isDelim noise, wordScore w < 40) :
    extract_best_serial_from_text (S ++ ' ' :: noise) = some S := by
  obtain ⟨hlen, hnd, hsc⟩ := strict_facts hS
  have hT : ¬ S ++ ' ' :: noise = [] := by
    intro e
    have := congrArg List.length e
    simp at this
  have hnws : ∀ c ∈ S, isWs c = false := fun c hc => not_ws_of_not_delim (hnd c hc)
  -- the front strip is the identity since the text starts with a digit
  have hfront : (S ++ ' ' :: noise).dropWhile isWs = S ++ ' ' :: noise := by
    obtain ⟨c, S1, hS2⟩ : ∃ c S1, S = c :: S1 := by
      match S, hlen with
      | c :: S1, _ => exact ⟨c, S1, rfl⟩
    rw [hS2, List.cons_append]
    exact List.dropWhile_cons_of_neg (by simp [hnws c (by simp [hS2])])
  -- decompose the reversed noise into its whitespace suffix and the rest
  have hsplitrev := List.takeWhile_append_dropWhile (p := isWs) (l := noise.reverse)
  set wsP := noise.reverse.takeWhile isWs with hwsP
  set n1rev := noise.reverse.dropWhile isWs with hn1rev
  have hwsall : ∀ c ∈ wsP, isWs c = true := fun c hc => List.mem_takeWhile_imp hc
  have hnoise_eq : noise = n1rev.reverse ++ wsP.reverse := by
    have : noise.reverse.reverse = (wsP ++ n1rev).reverse := by rw [hsplitrev]
    simpa using this
  have hrevT : (S ++ ' ' :: noise).reverse = wsP ++ (n1rev ++ ' ' :: S.reverse) := by
    rw [List.reverse_append]
    simp only [List.reverse_cons]
    conv_lhs => rw [← hsplitrev]
    simp
  have hdropT : ((S ++ ' ' :: noise).reverse).dropWhile isWs =
      (n1rev ++ ' ' :: S.reverse).dropWhile isWs := by
    rw [hrevT]
    exact List.dropWhile_append_of_pos hwsall
  rcases hcase : n1rev with _ | ⟨c0, nrest⟩
  · -- the noise is pure whitespace: the strip reduces the text to S alone
    have hstrip : stripWs (S ++ ' ' :: noise) = S := by
      unfold stripWs
      rw [hfront, hdropT, hcase]
      simp only [List.nil_append]
      rw [List.dropWhile_cons_of_pos (by simp [isWs]),
        dropWhile_eq_self_of_all (by simp only [List.mem_reverse]; exact hnws),
        List.reverse_reverse]
    exact extract_core hlen hsc hT (by rw [hstrip]; exact pySplit_no_delim hnd) (by simp)
  · -- the stripped text is S, a space, then the right-trimmed noise
    have hc0 : isWs c0 = false := dropWhile_head_false (hcase ▸ hn1rev.symm)
    have hstrip : stripWs (S ++ ' ' :: noise) = S ++ ' ' :: n1rev.reverse := by
      unfold stripWs
      rw [hfront, hdropT, hcase, List.cons_append,
        List.dropWhile_cons_of_neg (by simp [hc0]), ← List.cons_append, ← hcase]
      rw [List.reverse_append, List.reverse_cons, List.reverse_reverse]
      simp
    have hsplitT : pySplit isDelim (stripWs (S ++ ' ' :: noise)) =
        S :: pySplit isDelim n1rev.reverse := by
      rw [hstrip]
      exact pySplit_append_front _ hnd (by decide)
    refine extract_core hlen hsc hT hsplitT ?_
    intro w hw
    have hmem : w ∈ pySplit isDelim noise := by
      rw [hnoise_eq,
        pySplit_append_delims _ (fun c hc => delim_of_ws (hwsall c (by simpa using hc)))]
      exact List.mem_append_left _ hw
    have := hn w hmem
    omega

/-! ## Characterization of the flexible validator -/

theorem takeWhile_len_ge {p : Char → Bool} {l : Str} {n : Nat} :
    n ≤ (l.takeWhile p).length ↔
      ∃ a rest, l = a ++ rest ∧ a.length = n ∧ ∀ c ∈ a, p c = true := by
  constructor
  · intro h
    refine ⟨(l.takeWhile p).take n, (l.takeWhile p).drop n ++ l.dropWhile p, ?_, ?_, ?_⟩
    · conv_lhs => rw [← List.takeWhile_append_dropWhile (p := p) (l := l)]
      rw [← List.append_assoc, List.take_append_drop]
    · simp [List.length_take]
      omega
    · intro c hc
      exact List.mem_takeWhile_imp (List.mem_of_mem_take hc)
  · rintro ⟨a, rest, rfl, rfl, hall⟩
    rw [List.takeWhile_append_of_pos hall]
    simp

theorem flexMatchHere_iff {u : Str} :
    flexMatchHere u = true ↔
      ∃ d a rest, u = d :: (a ++ rest) ∧ isDigitC d = true ∧
        a.length = 9 ∧ ∀ c ∈ a, isUpperAlnum c = true := by
  cases u with
  | nil => simp [flexMatchHere]
  | cons c t =>
    simp only [flexMatchHere, Bool.and_eq_true, decide_eq_true_eq]
    constructor
    · rintro ⟨hd, hlen⟩
      obtain ⟨a, rest, rfl, hal, hall⟩ := takeWhile_len_ge.mp hlen
      exact ⟨c, a, rest, rfl, hd, hal, hall⟩
    · rintro ⟨d, a, rest, heq, hd, hal, hall⟩
      obtain ⟨rfl, rfl⟩ : c = d ∧ t = a ++ rest := by
        constructor <;> simp_all
      exact ⟨hd, takeWhile_len_ge.mpr ⟨a, rest, rfl, hal, hall⟩⟩

/-- C1 counterexample: the validator accepts a 10-character flexible serial
that the strict fixed-format pattern rejects, so acceptance is not
equivalent to matching the strict format. -/
theorem C1_strict_iff_counterexample :
    ¬ (is_valid_amd_cpu_serial ("9AAAAAAAAA".toList) = true ↔
       matchesStrictSerial (stripWs ("9AAAAAAAAA".toList)) = true) := by
  decide

/-- C1 (amended): `is_valid_amd_cpu_serial(s)` returns True iff the trimmed
`s` begins with a digit followed by at least 9 uppercase-alphanumeric
characters; the strict fixed format (digit + 11 alphanumeric + underscore +
3 digits + dash + 12 digits) is sufficient but not necessary. -/
theorem C1_flexible_validator (s : Str) :
    is_valid_amd_cpu_serial s = true ↔
      ∃ d a rest, stripWs s = d :: (a ++ rest) ∧ isDigitC d = true ∧
        a.length = 9 ∧ ∀ c ∈ a, isUpperAlnum c = true := by
  unfold is_valid_amd_cpu_serial
  by_cases hs : s = []
  · subst hs
    simp [stripWs]
  · rw [if_neg hs]
    exact flexMatchHere_iff

/-- C1 witness: the flexible characterization evaluated at a concrete
accepted serial. -/
theorem C1_flexible_validator_witness :
    is_valid_amd_cpu_serial ("9AAAAAAAAA".toList) = true ∧
      ∃ d a rest, stripWs ("9AAAAAAAAA".toList) = d :: (a ++ rest) ∧
        isDigitC d = true ∧ a.length = 9 ∧ ∀ c ∈ a, isUpperAlnum c = true :=
  ⟨by decide, (C1_flexible_validator _).mp (by decide)⟩

/-- C2: extraction returns a strict serial unchanged, and returns it from a
text formed by the serial, a space, and noise whose tokens all score below
the 40-point acceptance threshold under the token-scoring rules. -/
theorem C2_extraction_identity_and_noise :
    (∀ S : Str, matchesStrictSerial S = true →
      extract_best_serial_from_text S = some S) ∧
    (∀ S noise : Str, matchesStrictSerial S = true →
      (∀ w ∈ pySplit isDelim noise, wordScore w < 40) →
      extract_best_serial_from_text (S ++ ' ' :: noise) = some S) :=
  ⟨fun _ h => extract_strict_id h, fun _ _ hS hn => extract_strict_with_noise hS hn⟩

/-- C2 witness: both parts applied to a concrete strict serial and concrete
low-scoring noise. -/
theorem C2_extraction_witness :
    extract_best_serial_from_text ("9ABCDEF01234_100-000000001463".toList) =
      some ("9ABCDEF01234_100-000000001463".toList) ∧
    extract_best_serial_from_text
        ("9ABCDEF01234_100-000000001463".toList ++ ' ' :: "SLT coverage patch".toList) =
      some ("9ABCDEF01234_100-000000001463".toList) :=
  ⟨C2_extraction_identity_and_noise.1 _ (by decide),
   C2_extraction_identity_and_noise.2 _ _ (by decide) (by decide)⟩

/-! ## Soundness of the extractor output (C10) -/

theorem extractLoop_mem :
    ∀ {ws : List Str} {bw : Option Str} {bs : Nat} {w : Str},
      (extractLoop ws (bw, bs)).1 = some w →
      bw = some w ∨ (w ∈ ws ∧ 10 ≤ w.length) := by
  intro ws
  induction ws with
  | nil => intro bw bs w h; exact Or.inl h
  | cons v ws ih =>
    intro bw bs w h
    simp only [extractLoop] at h
    by_cases hl : v.length < 10
    · rw [if_pos hl] at h
      rcases ih h with h | ⟨hm, hlen⟩
      · exact Or.inl h
      · exact Or.inr ⟨by simp [hm], hlen⟩
    · rw [if_neg hl] at h
      by_cases hb : bs < wordScore v
      · rw [if_pos hb] at h
        rcases ih h with h | ⟨hm, hlen⟩
        · obtain rfl : v = w := by simpa using h
          exact Or.inr ⟨by simp, by omega⟩
        · exact Or.inr ⟨by simp [hm], hlen⟩
      · rw [if_neg hb] at h
        rcases ih h with h | ⟨hm, hlen⟩
        · exact Or.inl h
        · exact Or.inr ⟨by simp [hm], hlen⟩

theorem pySplit_head_pre {p : Char → Bool} :
    ∀ {l w : Str} {ws : List Str}, pySplit p l = w :: ws → ∃ rest, l = w ++ rest := by
  intro l
  induction l with
  | nil =>
    intro w ws h
    simp only [pySplit] at h
    obtain ⟨rfl, _⟩ : ([] : Str) = w ∧ ([] : List Str) = ws := by simp_all
    exact ⟨[], rfl⟩
  | cons c t ih =>
    intro w ws h
    rcases hs : pySplit p t with _ | ⟨w0, ws0⟩
    · exact absurd hs (pySplit_ne_nil t)
    · simp only [pySplit, hs] at h
      by_cases hc : p c = true
      · rw [if_pos hc] at h
        obtain ⟨rfl, _⟩ : ([] : Str) = w ∧ w0 :: ws0 = ws := by simp_all
        exact ⟨c :: t, rfl⟩
      · rw [if_neg hc] at h
        obtain ⟨rfl, _⟩ : c :: w0 = w ∧ ws0 = ws := by simp_all
        obtain ⟨rest, hrest⟩ := ih hs
        exact ⟨rest, by simp [hrest]⟩

theorem pySplit_mem_infix {p : Char → Bool} :
    ∀ {l w : Str}, w ∈ pySplit p l → ∃ pre post, l = pre ++ (w ++ post) := by
  intro l
  induction l with
  | nil =>
    intro w hw
    simp only [pySplit, List.mem_singleton] at hw
    exact ⟨[], [], by simp [hw]⟩
  | cons c t ih =>
    intro w hw
    rcases hs : pySplit p t with _ | ⟨w0, ws0⟩
    · exact absurd hs (pySplit_ne_nil t)
    · simp only [pySplit, hs] at hw
      by_cases hc : p c = true
      · rw [if_pos hc] at hw
        rcases List.mem_cons.mp hw with rfl | hw
        · exact ⟨[], c :: t, by simp⟩
        · obtain ⟨pre, post, hpp⟩ := ih (by rw [hs]; exact hw)
          exact ⟨c :: pre, post, by simp [hpp]⟩
      · rw [if_neg hc] at hw
        rcases List.mem_cons.mp hw with rfl | hw
        · obtain ⟨rest, hrest⟩ := pySplit_head_pre hs
          exact ⟨[], rest, by simp [hrest]⟩
        · obtain ⟨pre, post, hpp⟩ := ih (by rw [hs]; exact List.mem_cons_of_mem _ hw)
          exact ⟨c :: pre, post, by simp [hpp]⟩

theorem stripWs_infix (s : Str) : ∃ pre post, s = pre ++ (stripWs s ++ post) := by
  refine ⟨s.takeWhile isWs, ((s.dropWhile isWs).reverse.takeWhile isWs).reverse, ?_⟩
  have h2 : s.dropWhile isWs =
      stripWs s ++ ((s.dropWhile isWs).reverse.takeWhile isWs).reverse := by
    have h3 := List.takeWhile_append_dropWhile (p := isWs)
      (l := (s.dropWhile isWs).reverse)
    have h4 := congrArg List.reverse h3
    rw [List.reverse_append, List.reverse_reverse] at h4
    exact h4.symm
  conv_lhs => rw [← List.takeWhile_append_dropWhile (p := isWs) (l := s)]
  rw [← h2]

/-- C10: the extractor returns either nothing or one of the
whitespace/punctuation-separated tokens of the text, always of length at
least 10 (hence never empty) and always a contiguous substring of the
input; the empty input yields nothing. -/
theorem C10_extract_sound :
    (∀ s : Str, extract_best_serial_from_text s = none ∨
      ∃ w, extract_best_serial_from_text s = some w ∧ 10 ≤ w.length ∧
        w ∈ pySplit isDelim (stripWs s) ∧ ∃ pre post, s = pre ++ (w ++ post)) ∧
    extract_best_serial_from_text [] = none := by
  constructor
  · intro s
    by_cases hs : s = []
    · subst hs
      exact Or.inl rfl
    · rcases hE : extractLoop (pySplit isDelim (stripWs s)) (none, 0) with ⟨bw, bs⟩
      have hval : extract_best_serial_from_text s = if 40 ≤ bs then bw else none := by
        unfold extract_best_serial_from_text
        rw [if_neg hs]
        simp only [hE]
      by_cases h40 : 40 ≤ bs
      · rw [if_pos h40] at hval
        cases bw with
        | none => exact Or.inl hval
        | some w =>
          have hmem := @extractLoop_mem (pySplit isDelim (stripWs s))
            none 0 w (by rw [hE])
          rcases hmem with h | ⟨hm, hlen⟩
          · exact absurd h (by simp)
          · refine Or.inr ⟨w, hval, hlen, hm, ?_⟩
            obtain ⟨pre1, post1, hinfix⟩ := pySplit_mem_infix hm
            obtain ⟨pre0, post0, houter⟩ := stripWs_infix s
            exact ⟨pre0 ++ pre1, post1 ++ post0, by
              rw [houter, hinfix]
              simp⟩
      · rw [if_neg h40] at hval
        exact Or.inl hval
  · rfl

/-! ## Column-name normalization and the field-merge policy
(parser.py lines 443-464 and 1040-1076) -/

/-- Helper for Python `str.split()`: maximal runs of characters satisfying
`p`, skipping separators and dropping empty pieces. -/
def runsGo (p : Char → Bool) : Str → Str → List Str
  | [], cur => if cur = [] then [] else [cur.reverse]
  | c :: s, cur =>
    if p c then runsGo p s (c :: cur)
    else if cur = [] then runsGo p s [] else cur.reverse :: runsGo p s []

/-- Maximal runs of characters satisfying `p` (used for `str.split()` and
for `re.findall` over a character class). -/
def maximalRuns (p : Char → Bool) (s : Str) : List Str := runsGo p s []

/-- Python `s.split()`: split on whitespace runs, dropping empties. -/
def splitPyWs (s : Str) : List Str := maximalRuns (fun c => !isWs c) s

/-- `normalize_column_name` (parser.py lines 443-464): strip, lowercase,
collapse internal whitespace to single spaces. -/
def normalize_column_name (s : Str) : Str :=
  List.intercalate [' '] (splitPyWs (lowerS (stripWs s)))

/-- Python `str.startswith('_')`. -/
def startsUnderscore : Str → Bool
  | '_' :: _ => true
  | _ => false

/-- Python substring containment `needle in hay`. -/
def containsSub (needle : Str) : Str → Bool
  | [] => decide (needle = [])
  | c :: rest => needle.isPrefixOf (c :: rest) || containsSub needle rest

/-- The deny-list of `is_valid_customer_value` (parser.py lines 81-97). -/
def NON_CUSTOMER_PATTERNS : List Str :=
  (["RMA", "FA", "NFF", "TBD", "TBC", "N/A", "NA", "NONE", "NULL", "UNKNOWN",
    "ERR", "ERROR", "FAIL", "PARITY", "HANG", "CRASH", "WDT", "TIMEOUT",
    "STRESS", "ACF", "CORR", "UNCORR", "ECC", "MCE", "WHEA",
    "ATE", "SLT", "OSV", "CESLT", "L1", "L2", "FT1", "FT2",
    "TEST", "DEBUG", "SAMPLE", "INTERNAL", "DEMO",
    "HUAQIN", "WISTRON", "FOXCONN", "QUANTA", "COMPAL", "INVENTEC",
    "PEGATRON", "FLEX", "JABIL", "CELESTICA", "SUPER MICRO", "SUPERMICRO",
    "TURIN", "GENOA", "BERGAMO", "SIENA", "MILAN", "ROME", "NAPLES",
    "EPYC", "RYZEN", "THREADRIPPER", "ZEN"]).map String.toList

/-- The allow-list of `is_valid_customer_value` (parser.py lines 114-118). -/
def KNOWN_CUSTOMERS : List Str :=
  (["TENCENT", "ALIBABA", "UNIT", "HUAWEI", "BAIDU", "BYTEDANCE",
    "MICROSOFT", "GOOGLE", "AMAZON", "META", "ORACLE", "IBM",
    "DELL", "HP", "HPE", "LENOVO", "SUPERMICRO", "CISCO"]).map String.toList

/-- `is_valid_amd_cpu_serial`-style validation for customer cells:
`is_valid_customer_value` (parser.py lines 65-130).  The float comparison
`len(short_words) >= len(words) / 2` is embedded exactly as
`words.length ≤ 2 * short.length`. -/
def is_valid_customer_value (customer : Str) : Bool :=
  if customer = [] then false
  else
    let c := stripWs customer
    if c = [] ∨ c.length < 2 then false
    else
      let cu := upperS c
      if NON_CUSTOMER_PATTERNS.any (fun pat => containsSub pat cu) then false
      else
        let words := splitPyWs c
        if 2 ≤ words.length ∧
            words.length ≤ 2 * (words.filter (fun w => w.length ≤ 3)).length then false
        else if KNOWN_CUSTOMERS.any (fun k => containsSub k cu) then true
        else if 3 ≤ c.length ∧ c.length ≤ 50 ∧ (c ≠ cu ∨ 6 < c.length) then true
        else false

/-- A record field map: insertion-ordered association list modelling a
Python dict (keys unique). -/
abbrev FieldMap := List (Str × Str)

/-- The existing-key search of the raw-data merge (parser.py lines
1052-1057): the first stored key that is not metadata (no leading
underscore) and normalizes to the incoming normalized column name. -/
def findExistingKey (acc : FieldMap) (ncol : Str) : Option Str :=
  (acc.find? fun kv =>
    !startsUnderscore kv.1 && decide (normalize_column_name kv.1 = ncol)).map (·.1)

def getVal (acc : FieldMap) (k : Str) : Option Str :=
  (acc.find? fun kv => decide (kv.1 = k)).map (·.2)

/-- In-place value update of an association list (Python dict assignment to
an existing key). -/
def setVal : FieldMap → Str → Str → FieldMap
  | [], _, _ => []
  | (k0, v0) :: rest, k, v =>
    if k0 = k then (k0, v) :: rest else (k0, v0) :: setVal rest k v

/-- Python dict assignment `d[k] = v`: update in place when present,
append otherwise. -/
def dictInsert (acc : FieldMap) (k : Str) (v : Str) : FieldMap :=
  if (acc.find? fun kv => decide (kv.1 = k)).isSome then setVal acc k v
  else acc ++ [(k, v)]

/-- One field of the raw-data merge loop (parser.py lines 1042-1076):
conflict on an existing normalized column concatenates with a separator;
a new column is stored under its original name, except that an invalid
CUSTOMER-classified value is skipped.  `cls` is the column→category map in
effect (`column_classification.get(col, "IGNORE")`). -/
def mergeRowField (cls : Str → Str) (acc : FieldMap) (cv : Str × Str) : FieldMap :=
  match findExistingKey acc (normalize_column_name cv.1) with
  | some k =>
    match getVal acc k with
    | some ev =>
      if ev ≠ cv.2 then setVal acc k (ev ++ ' ' :: '|' :: ' ' :: cv.2) else acc
    | none => acc
  | none =>
    if cls cv.1 = ("CUSTOMER".toList) ∧ is_valid_customer_value cv.2 = false then acc
    else dictInsert acc cv.1 cv.2

/-- The raw-data merge of a row into an accumulated field map. -/
def mergeRow (cls : Str → Str) (acc : FieldMap) (row : FieldMap) : FieldMap :=
  row.foldl (mergeRowField cls) acc

/-! ## Merge-policy lemmas (C3) -/

theorem mergeRowField_fresh {cls : Str → Str} {acc : FieldMap} {col v : Str}
    (hfresh : ∀ kv ∈ acc, normalize_column_name kv.1 ≠ normalize_column_name col)
    (hcust : cls col = ("CUSTOMER".toList) → is_valid_customer_value v = true) :
    mergeRowField cls acc (col, v) = acc ++ [(col, v)] := by
  have hfind : (acc.find? fun kv =>
      !startsUnderscore kv.1 &&
        decide (normalize_column_name kv.1 = normalize_column_name col)) = none := by
    rw [List.find?_eq_none]
    intro kv hkv
    simp [hfresh kv hkv]
  have hkey : (acc.find? fun kv => decide (kv.1 = col)) = none := by
    rw [List.find?_eq_none]
    intro kv hkv
    simp only [decide_eq_true_eq]
    intro e
    exact hfresh kv hkv (by rw [e])
  unfold mergeRowField findExistingKey
  rw [hfind]
  simp only [Option.map_none']
  rw [if_neg ?_, dictInsert, hkey]
  · simp
  · rintro ⟨h1, h2⟩
    rw [hcust h1] at h2
    simp at h2

theorem mergeRow_fresh_append {cls : Str → Str} :
    ∀ {r acc : FieldMap},
      (∀ kv ∈ acc, ∀ kv2 ∈ r, normalize_column_name kv.1 ≠ normalize_column_name kv2.1) →
      ((r.map fun kv => normalize_column_name kv.1).Nodup) →
      (∀ kv ∈ r, cls kv.1 = ("CUSTOMER".toList) → is_valid_customer_value kv.2 = true) →
      mergeRow cls acc r = acc ++ r := by
  intro r
  induction r with
  | nil => intro acc _ _ _; simp [mergeRow]
  | cons cv r ih =>
    intro acc hdisj hnodup hcust
    obtain ⟨col, v⟩ := cv
    have hstep : mergeRowField cls acc (col, v) = acc ++ [(col, v)] :=
      mergeRowField_fresh (fun kv hkv => hdisj kv hkv (col, v) (by simp))
        (hcust (col, v) (by simp))
    rw [List.map_cons, List.nodup_cons] at hnodup
    obtain ⟨hhead, htail⟩ := hnodup
    have ihr : mergeRow cls (acc ++ [(col, v)]) r = (acc ++ [(col, v)]) ++ r := by
      refine ih ?_ htail (fun kv hkv h => hcust kv (by simp [hkv]) h)
      intro kv hkv kv2 hkv2
      rcases List.mem_append.mp hkv with hkv | hkv
      · exact hdisj kv hkv kv2 (by simp [hkv2])
      · obtain rfl : kv = (col, v) := by simpa using hkv
        intro e
        apply hhead
        rw [e]
        exact List.mem_map_of_mem _ hkv2
    calc mergeRow cls acc ((col, v) :: r)
        = mergeRow cls (mergeRowField cls acc (col, v)) r := by
          simp [mergeRow]
      _ = (acc ++ [(col, v)]) ++ r := by rw [hstep, ihr]
      _ = acc ++ ((col, v) :: r) := by simp

theorem keys_nodup_of_norm_nodup {r : FieldMap}
    (h : (r.map fun kv => normalize_column_name kv.1).Nodup) :
    (r.map Prod.fst).Nodup := by
  have h2 : ((r.map Prod.fst).map normalize_column_name).Nodup := by
    rw [List.map_map]
    exact h
  exact h2.of_map

theorem find_first_norm {r1 : FieldMap} {k1 v1 : Str}
    (hnodup : (r1.map fun kv => normalize_column_name kv.1).Nodup)
    (hu : ∀ kv ∈ r1, startsUnderscore kv.1 = false)
    (hmem : (k1, v1) ∈ r1) :
    (r1.find? fun kv => !startsUnderscore kv.1 &&
      decide (normalize_column_name kv.1 = normalize_column_name k1)) = some (k1, v1) := by
  induction r1 with
  | nil => simp at hmem
  | cons kv0 r ih =>
    rw [List.map_cons, List.nodup_cons] at hnodup
    obtain ⟨hhead, htail⟩ := hnodup
    rcases List.mem_cons.mp hmem with heq | hmem2
    · subst heq
      exact List.find?_cons_of_pos _ (by simp [hu (k1, v1) (by simp)])
    · have hne : normalize_column_name kv0.1 ≠ normalize_column_name k1 := by
        intro e
        apply hhead
        rw [e]
        exact List.mem_map_of_mem _ hmem2
      rw [List.find?_cons_of_neg _ (by simp [hne])]
      exact ih htail (fun kv hkv => hu kv (by simp [hkv])) hmem2

theorem getVal_of_mem {r1 : FieldMap} {k1 v1 : Str}
    (hkeys : (r1.map Prod.fst).Nodup) (hmem : (k1, v1) ∈ r1) :
    getVal r1 k1 = some v1 := by
  induction r1 with
  | nil => simp at hmem
  | cons kv0 r ih =>
    rw [List.map_cons, List.nodup_cons] at hkeys
    obtain ⟨hhead, htail⟩ := hkeys
    rcases List.mem_cons.mp hmem with heq | hmem2
    · subst heq
      unfold getVal
      rw [List.find?_cons_of_pos _ (by simp)]
      rfl
    · have hne : kv0.1 ≠ k1 := by
        intro e
        apply hhead
        rw [e]
        exact List.mem_map_of_mem _ hmem2
      unfold getVal
      rw [List.find?_cons_of_neg _ (by simp [hne])]
      exact ih htail hmem2

theorem getVal_setVal {m : FieldMap} {k v : Str}
    (hmem : k ∈ m.map Prod.fst) : getVal (setVal m k v) k = some v := by
  induction m with
  | nil => simp at hmem
  | cons kv0 r ih =>
    by_cases he : kv0.1 = k
    · unfold setVal getVal
      obtain ⟨a, b⟩ := kv0
      simp only at he
      rw [if_pos he]
      rw [List.find?_cons_of_pos _ (by simp [he])]
      rfl
    · unfold setVal getVal
      obtain ⟨a, b⟩ := kv0
      simp only at he
      rw [if_neg he]
      rw [List.find?_cons_of_neg _ (by simp [he])]
      have hmem2 : k ∈ r.map Prod.fst := by
        rcases (by simpa using hmem : k = a ∨ k ∈ r.map Prod.fst) with h | h
        · exact absurd h.symm he
        · exact h
      exact ih hmem2

/-- C3 counterexample: merging a record with a CUSTOMER-classified field
whose value fails the customer validity filter drops that field, so the
result is not the union of the two records even though their normalized
field sets are disjoint. -/
theorem C3_customer_drop_counterexample :
    mergeRow (fun k => if k = ("Customer".toList) then "CUSTOMER".toList
        else "IGNORE".toList)
      (mergeRow (fun k => if k = ("Customer".toList) then "CUSTOMER".toList
          else "IGNORE".toList) [] [("A".toList, "1".toList)])
      [("Customer".toList, "RMA".toList)] = [("A".toList, "1".toList)] ∧
    [("A".toList, "1".toList)] ≠
      [("A".toList, "1".toList), ("Customer".toList, "RMA".toList)] := by
  constructor
  · decide
  · decide

/-- C3 (amended): merging two records for the same identity preserves
every field of either input whose stored value passes the merge filters:
with disjoint normalized field sets (and no CUSTOMER-classified field
whose value fails the customer validity filter) the result is exactly the
ordered union, and a column shared by both records with different values
becomes first-seen, then the separator, then second-seen (stated for
records with unique normalized names and no underscore-prefixed,
metadata-reserved, field names). -/
theorem C3_merge_union_and_conflict :
    (∀ (cls : Str → Str) (r1 r2 : FieldMap),
      (((r1 ++ r2).map fun kv => normalize_column_name kv.1).Nodup) →
      (∀ kv ∈ r1 ++ r2, cls kv.1 = ("CUSTOMER".toList) →
        is_valid_customer_value kv.2 = true) →
      mergeRow cls (mergeRow cls [] r1) r2 = r1 ++ r2) ∧
    (∀ (cls : Str → Str) (r1 : FieldMap) (k1 v1 k2 v2 : Str),
      ((r1.map fun kv => normalize_column_name kv.1).Nodup) →
      (∀ kv ∈ r1, startsUnderscore kv.1 = false) →
      (∀ kv ∈ r1, cls kv.1 = ("CUSTOMER".toList) →
        is_valid_customer_value kv.2 = true) →
      (k1, v1) ∈ r1 →
      normalize_column_name k2 = normalize_column_name k1 →
      v1 ≠ v2 →
      getVal (mergeRow cls (mergeRow cls [] r1) [(k2, v2)]) k1 =
        some (v1 ++ ' ' :: '|' :: ' ' :: v2)) := by
  have hbase : ∀ (cls : Str → Str) (r1 : FieldMap),
      ((r1.map fun kv => normalize_column_name kv.1).Nodup) →
      (∀ kv ∈ r1, cls kv.1 = ("CUSTOMER".toList) →
        is_valid_customer_value kv.2 = true) →
      mergeRow cls [] r1 = r1 := by
    intro cls r1 hnodup hcust
    have := @mergeRow_fresh_append cls r1 [] (by simp) hnodup hcust
    simpa using this
  constructor
  · intro cls r1 r2 hnodup hcust
    rw [List.map_append, List.nodup_append] at hnodup
    obtain ⟨hn1, hn2, hdisj⟩ := hnodup
    rw [hbase cls r1 hn1 (fun kv hkv h => hcust kv (by simp [hkv]) h)]
    exact mergeRow_fresh_append
      (fun kv hkv kv2 hkv2 => by
        intro e
        exact hdisj (a := normalize_column_name kv.1)
          (List.mem_map_of_mem _ hkv) (by rw [e]; exact List.mem_map_of_mem _ hkv2))
      hn2 (fun kv hkv h => hcust kv (by simp [hkv]) h)
  · intro cls r1 k1 v1 k2 v2 hnodup hu hcust hmem hnorm hne
    rw [hbase cls r1 hnodup hcust]
    have hfind : findExistingKey r1 (normalize_column_name k2) = some k1 := by
      unfold findExistingKey
      rw [hnorm, find_first_norm hnodup hu hmem]
      rfl
    have hget : getVal r1 k1 = some v1 :=
      getVal_of_mem (keys_nodup_of_norm_nodup hnodup) hmem
    have hrow : mergeRow cls r1 [(k2, v2)] =
        setVal r1 k1 (v1 ++ ' ' :: '|' :: ' ' :: v2) := by
      unfold mergeRow
      simp only [List.foldl_cons, List.foldl_nil]
      unfold mergeRowField
      rw [hfind]
      simp only []
      rw [hget]
      simp only []
      rw [if_pos hne]
    rw [hrow]
    exact getVal_setVal (List.mem_map_of_mem _ hmem)

/-- C3 witness: the union and conflict cases of the amended merge claim
evaluated at concrete records (the Location Austin/Suzhou scenario). -/
theorem C3_merge_witness :
    mergeRow (fun _ => "IGNORE".toList)
      (mergeRow (fun _ => "IGNORE".toList) [] [("Location".toList, "Austin".toList)])
      [("Status".toList, "Fail".toList)] =
      [("Location".toList, "Austin".toList), ("Status".toList, "Fail".toList)] ∧
    getVal (mergeRow (fun _ => "IGNORE".toList)
      (mergeRow (fun _ => "IGNORE".toList) [] [("Location".toList, "Austin".toList)])
      [("location".toList, "Suzhou".toList)]) ("Location".toList) =
      some ("Austin".toList ++ ' ' :: '|' :: ' ' :: "Suzhou".toList) :=
  ⟨C3_merge_union_and_conflict.1 _ _ _ (by decide) (by decide),
   C3_merge_union_and_conflict.2 _ _ _ _ _ _ (by decide) (by decide) (by decide)
     (by decide) (by decide) (by decide)⟩

/-! ## Column role classification (column_classifier.py) -/

/-- The closed category enum (column_classifier.py lines 31-42). -/
def CATEGORIES : List Str :=
  (["SERIAL_NUMBER", "ERROR_TYPE", "STATUS", "TEST_TIER", "DATE",
    "CUSTOMER", "PLATFORM", "DIAGNOSTIC", "DESCRIPTION", "IGNORE"]).map String.toList

def anyKw (kws : List Str) (hay : Str) : Bool := kws.any fun kw => containsSub kw hay

/-- The local fallback heuristic `_classify_single_column`
(column_classifier.py lines 308-363): an ordered keyword chain over the
lowercased, stripped column name. -/
def classify_single_column (column : Str) : Str :=
  let col := stripWs (lowerS column)
  if anyKw ((["cpu_sn", "cpu sn", "cpusn", "2d_barcode", "serial",
      "sn", "barcode", "ppid", "system_sn", "rma#", "asset"]).map String.toList) col then
    "SERIAL_NUMBER".toList
  else if anyKw ((["date", "time", "日期", "timestamp", "datecode"]).map String.toList) col then
    "DATE".toList
  else if anyKw ((["stage", "l1", "l2", "l3", "ate", "slt", "ceslt", "osv",
      "afhc", "ft1", "ft2", "fs1", "fs2", "tier", "phase"]).map String.toList) col then
    "TEST_TIER".toList
  else if anyKw ((["error", "fail", "symptom", "issue", "problem",
      "错误", "故障", "fault", "failtype", "failure"]).map String.toList) col then
    if anyKw ((["core", "ccd", "socket", "die", "dimm", "channel",
        "rank"]).map String.toList) col then
      "DESCRIPTION".toList
    else if anyKw ((["dump", "log", "file", "path", ".tar", ".gz",
        "afhc"]).map String.toList) col then
      "DIAGNOSTIC".toList
    else "ERROR_TYPE".toList
  else if anyKw ((["status", "state", "状态", "fa_status", "fa status",
      "rma status", "resolution"]).map String.toList) col then
    "STATUS".toList
  else if anyKw ((["customer", "client", "客户", "cust",
      "end_customer"]).map String.toList) col then
    "CUSTOMER".toList
  else if anyKw ((["platform", "bios", "firmware", "version", "hardware",
      "config", "cpu", "dimm"]).map String.toList) col then
    "PLATFORM".toList
  else if anyKw ((["dump", "log", "file", "path", "url", "link", "sharepoint",
      "http", ".tar", ".gz", "afhc", "diagnostic"]).map String.toList) col then
    "DIAGNOSTIC".toList
  else if anyKw ((["comment", "note", "description", "summary", "observation",
      "debug", "remark"]).map String.toList) col then
    "DESCRIPTION".toList
  else "IGNORE".toList

/-- The validation loop of `_parse_nabu_response` (column_classifier.py
lines 277-287): metadata keys are skipped; a returned role whose uppercase
form is in the closed enum is kept (uppercased); any other role is
replaced by the fallback heuristic for that column name. -/
def validateOracle (classifications : List (Str × Str)) : List (Str × Str) :=
  classifications.filterMap fun kv =>
    if kv.1 = ("serial_number_column".toList) ∨ kv.1 = ("error_extraction_column".toList) then
      none
    else if upperS kv.2 ∈ CATEGORIES then some (kv.1, upperS kv.2)
    else some (kv.1, classify_single_column kv.1)

/-- The role the parser actually uses for a column:
`column_classification.get(col, "IGNORE")` (parser.py lines 832 and 1070). -/
def roleUsed (validated : List (Str × Str)) (col : Str) : Str :=
  match (validated.find? fun kv => decide (kv.1 = col)).map (·.2) with
  | some r => r
  | none => "IGNORE".toList

theorem validateOracle_key_mem {cl : List (Str × Str)} {kv : Str × Str}
    (h : kv ∈ validateOracle cl) : kv.1 ∈ cl.map Prod.fst := by
  obtain ⟨a, ha, hfa⟩ := List.mem_filterMap.mp h
  refine List.mem_map.mpr ⟨a, ha, ?_⟩
  split at hfa
  · simp at hfa
  · split at hfa <;> (cases hfa; rfl)

theorem validateOracle_find_invalid :
    ∀ {cl : List (Str × Str)} {col cat : Str},
      ((cl.map Prod.fst).Nodup) → (col, cat) ∈ cl →
      ¬ col = ("serial_number_column".toList) →
      ¬ col = ("error_extraction_column".toList) →
      upperS cat ∉ CATEGORIES →
      (validateOracle cl).find? (fun kv => decide (kv.1 = col)) =
        some (col, classify_single_column col) := by
  intro cl
  induction cl with
  | nil => intro col cat _ hmem; simp at hmem
  | cons kv0 r ih =>
    intro col cat hnodup hmem hm1 hm2 hinv
    rw [List.map_cons, List.nodup_cons] at hnodup
    obtain ⟨hhead, htail⟩ := hnodup
    rcases List.mem_cons.mp hmem with heq | hmem2
    · subst heq
      have hcl : validateOracle ((col, cat) :: r) =
          (col, classify_single_column col) :: validateOracle r := by
        unfold validateOracle
        rw [List.filterMap_cons]
        rw [if_neg (by rintro (h | h) <;> simp_all), if_neg (by simpa using hinv)]
      rw [hcl, List.find?_cons_of_pos _ (by simp)]
    · have hne : kv0.1 ≠ col := by
        intro e
        apply hhead
        rw [e]
        exact List.mem_map.mpr ⟨(col, cat), hmem2, rfl⟩
      have hrest := ih htail hmem2 hm1 hm2 hinv
      unfold validateOracle
      rw [List.filterMap_cons]
      split
      · exact hrest
      · rename_i x b heq
        have hb1 : b.1 = kv0.1 := by
          split at heq
          · exact absurd heq (by simp)
          · split at heq
            · cases heq
              rfl
            · cases heq
              rfl
        rw [List.find?_cons_of_neg _ (by simp [hb1, hne])]
        exact hrest

/-- C6 counterexample: a column absent from the oracle response is used
with role IGNORE, not with the local fallback role; for the STATUS-named
column "FA status" the fallback would give STATUS. -/
theorem C6_missing_role_counterexample :
    roleUsed (validateOracle []) ("FA status".toList) = "IGNORE".toList ∧
    classify_single_column ("FA status".toList) = "STATUS".toList ∧
    ("IGNORE".toList : Str) ≠ "STATUS".toList := by
  exact ⟨by decide, by decide, by decide⟩

/-- C6 (amended): a column present in the oracle response whose returned
role is not in the closed enum (after uppercasing) is assigned the local
fallback heuristic role; a column missing from the response is assigned
IGNORE, not the fallback; in particular the STATUS-containing column name
"FA status" with returned role BOGUS_ROLE is assigned STATUS. -/
theorem C6_oracle_role_validation :
    (∀ (cl : List (Str × Str)) (col cat : Str),
      ((cl.map Prod.fst).Nodup) → (col, cat) ∈ cl →
      ¬ col = ("serial_number_column".toList) →
      ¬ col = ("error_extraction_column".toList) →
      upperS cat ∉ CATEGORIES →
      roleUsed (validateOracle cl) col = classify_single_column col) ∧
    (∀ (cl : List (Str × Str)) (col : Str),
      col ∉ cl.map Prod.fst →
      roleUsed (validateOracle cl) col = "IGNORE".toList) ∧
    roleUsed (validateOracle [("FA status".toList, "BOGUS_ROLE".toList)])
      ("FA status".toList) = "STATUS".toList := by
  refine ⟨?_, ?_, by decide⟩
  · intro cl col cat hnodup hmem hm1 hm2 hinv
    unfold roleUsed
    rw [validateOracle_find_invalid hnodup hmem hm1 hm2 hinv]
    rfl
  · intro cl col habs
    unfold roleUsed
    have hnone : (validateOracle cl).find? (fun kv => decide (kv.1 = col)) = none := by
      rw [List.find?_eq_none]
      intro kv hkv
      simp only [decide_eq_true_eq]
      intro e
      exact habs (e ▸ validateOracle_key_mem hkv)
    rw [hnone]
    rfl

/-- C6 witness: both amended clauses applied at concrete inputs. -/
theorem C6_oracle_role_validation_witness :
    roleUsed (validateOracle [("FA status".toList, "BOGUS_ROLE".toList)])
      ("FA status".toList) = classify_single_column ("FA status".toList) ∧
    roleUsed (validateOracle [("Foo".toList, "STATUS".toList)]) ("Bar".toList) =
      "IGNORE".toList :=
  ⟨C6_oracle_role_validation.1 [("FA status".toList, "BOGUS_ROLE".toList)]
      ("FA status".toList) ("BOGUS_ROLE".toList) (by decide) (by decide) (by decide)
      (by decide) (by decide),
   C6_oracle_role_validation.2.1 _ _ (by decide)⟩

/-! ## Sheet skipping (C5) -/

/-- `SKIP_SHEET_PATTERNS` (parser.py line 564). -/
def SKIP_SHEET_PATTERNS : List Str :=
  (["datecode", "lookup", "reference", "master", "database", "template"]).map String.toList

/-- `MAX_SHEET_ROWS` (parser.py line 565). -/
def MAX_SHEET_ROWS : Nat := 2000

/-- The name-based skip of the second pass (parser.py lines 700-710):
applies only when the file has more than one sheet. -/
def sheetNameSkipped (numSheets : Nat) (name : Str) : Bool :=
  decide (1 < numSheets) && anyKw SKIP_SHEET_PATTERNS (stripWs (lowerS name))

/-- Whether a sheet is skipped: the guarded name check, or the row-count
ceiling (parser.py lines 791-793), which the code applies without any
sheet-count guard. -/
def sheetSkipped (numSheets : Nat) (name : Str) (numRows : Nat) : Bool :=
  sheetNameSkipped numSheets name || decide (MAX_SHEET_ROWS < numRows)

/-- C5 counterexample: a file with exactly one sheet whose row count
exceeds the ceiling is skipped, although the claim says a single sheet is
always processed regardless of its row count. -/
theorem C5_single_sheet_ceiling_counterexample :
    sheetSkipped 1 ("data".toList) 2001 = true := by decide

/-- C5 (amended): the lookup/reference name patterns cause a skip only
when the file has more than one sheet, but the row-count ceiling applies
regardless of the number of sheets: a single sheet within the ceiling is
always processed whatever its name, and any sheet above the ceiling is
skipped even when it is the only sheet. -/
theorem C5_sheet_skipping :
    (∀ (name : Str) (rows : Nat), rows ≤ MAX_SHEET_ROWS →
      sheetSkipped 1 name rows = false) ∧
    (∀ (n : Nat) (name : Str) (rows : Nat), MAX_SHEET_ROWS < rows →
      sheetSkipped n name rows = true) ∧
    (∀ (n : Nat) (name : Str) (rows : Nat), 1 < n →
      anyKw SKIP_SHEET_PATTERNS (stripWs (lowerS name)) = true →
      sheetSkipped n name rows = true) := by
  refine ⟨?_, ?_, ?_⟩
  · intro name rows hrows
    simp [sheetSkipped, sheetNameSkipped]
    omega
  · intro n name rows hrows
    simp [sheetSkipped, hrows]
  · intro n name rows hn hname
    simp [sheetSkipped, sheetNameSkipped, hn, hname]

/-- C5 witness: a single over-long sheet is skipped; a single
skip-pattern-named sheet within the ceiling is processed; a second sheet
with a skip-pattern name is skipped. -/
theorem C5_sheet_skipping_witness :
    sheetSkipped 1 ("datecode".toList) 5 = false ∧
    sheetSkipped 1 ("data".toList) 2001 = true ∧
    sheetSkipped 2 ("lookup".toList) 5 = true :=
  ⟨C5_sheet_skipping.1 _ 5 (by decide),
   C5_sheet_skipping.2.1 1 _ 2001 (by decide),
   C5_sheet_skipping.2.2 2 _ 5 (by decide) (by decide)⟩

/-! ## Row-level errorType/status updates (parser.py lines 824-1038) -/

/-- The ERROR_TYPE-classified columns, with the keyword fallback of
parser.py lines 848-856 (first column containing an error keyword and no
diagnostic-file keyword). -/
def error_columns (cols : List Str) (cls : Str → Str) : List Str :=
  let ecs := cols.filter fun c => decide (cls c = "ERROR_TYPE".toList)
  if ecs = [] then
    match cols.find? (fun c =>
      anyKw ((["error", "failure", "issue", "symptom"]).map String.toList)
        (stripWs (lowerS c)) &&
      !(anyKw ((["dump", "log", "file", ".tar", ".gz"]).map String.toList)
        (stripWs (lowerS c)))) with
    | some c => [c]
    | none => []
  else ecs

/-- The first STATUS-classified column (parser.py lines 836-838). -/
def status_column (cols : List Str) (cls : Str → Str) : Option Str :=
  cols.find? fun c => decide (cls c = "STATUS".toList)

/-- The TEST_TIER-classified columns in column order (parser.py line 839). -/
def tier_columns (cols : List Str) (cls : Str → Str) : List Str :=
  cols.filter fun c => decide (cls c = "TEST_TIER".toList)

/-- The value filter for ERROR_TYPE cells (parser.py lines 969-975):
truthy, not a placeholder, not a file path or URL, under the length cap. -/
def errorValueOk (v : Str) : Bool :=
  decide (v ≠ []) &&
  !(((["n/a", "na", "none", ""]).map String.toList).any fun x =>
      decide (lowerS v = x)) &&
  !((([".tar", ".gz", ".log", "http://", "https://"]).map String.toList).any fun ext =>
      containsSub ext (lowerS v)) &&
  decide (v.length < 100)

/-- The collected error candidates for one row (parser.py lines 958-976):
the error text extracted from the identity cell first, then the accepted
values of the ERROR_TYPE columns in order. -/
def error_values (cells : Str → Option Str) (extracted : Option Str)
    (ecols : List Str) : List Str :=
  (match extracted with | some e => [e] | none => []) ++
  ecols.filterMap fun c =>
    match cells c with
    | some v => if errorValueOk v then some v else none
    | none => none

/-- Failure test for a tier value in the error-derivation pass
(parser.py lines 997-1002): not one of the exact pass/not-run markers, and
not prefixed by NFF or NFT. -/
def tierFailVal (v : Str) : Bool :=
  !(((["PASS", "PASSED", "NFF", "NFT", "NOT RUN", "N/A", "NA", ""]).map
      String.toList).any fun m => decide (stripWs (upperS v) = m)) &&
  !(("NFF".toList).isPrefixOf (stripWs (upperS v))) &&
  !(("NFT".toList).isPrefixOf (stripWs (upperS v)))

/-- Whether the cell of a tier column is a truthy failing value. -/
def tierCellFails (cells : Str → Option Str) (c : Str) : Bool :=
  match cells c with
  | some v => decide (v ≠ []) && tierFailVal v
  | none => false

/-- `failed_tiers` of the error-derivation pass (parser.py lines 992-1002). -/
def failed_tiers (cells : Str → Option Str) (tcols : List Str) : List Str :=
  tcols.filter (tierCellFails cells)

/-- Exact pass markers of the status-inference pass (parser.py line 1027). -/
def tierPassVal (v : Str) : Bool :=
  ((["PASS", "PASSED", "NFF", "NFT"]).map String.toList).any fun m =>
    decide (stripWs (upperS v) = m)

/-- Failure test of the status-inference pass (parser.py line 1029): not a
pass marker and not a not-run marker (no NFF/NFT prefix exemption here). -/
def tierStatusFailVal (v : Str) : Bool :=
  !(tierPassVal v) &&
  !(((["NOT RUN", "N/A", "NA", ""]).map String.toList).any fun m =>
      decide (stripWs (upperS v) = m))

/-- The truthy value of a tier cell, if any. -/
def tierCellVal (cells : Str → Option Str) (c : Str) : Option Str :=
  match cells c with
  | some v => if v = [] then none else some v
  | none => none

def tierVals (cells : Str → Option Str) (tcols : List Str) : List Str :=
  tcols.filterMap (tierCellVal cells)

/-- The tier-based status inference (parser.py lines 1016-1038). -/
def inferTierStatus (cells : Str → Option Str) (tcols : List Str) : Option Str :=
  let vals := tierVals cells tcols
  if vals = [] then none
  else if vals.any tierStatusFailVal then some ("Failed".toList)
  else if vals.any tierPassVal then some ("Passed".toList)
  else some ("Not Run".toList)

/-- Python falsiness of the stored `error_type`/`status` slots (None or
empty string). -/
def optFalsy : Option Str → Bool
  | none => true
  | some v => decide (v = [])

/-- The errorType/status slots of a `CanonicalAsset` under construction. -/
structure AssetES where
  error_type : Option Str
  status : Option Str
deriving DecidableEq

/-- The per-row errorType/status update of `parse_excel`
(parser.py lines 958-1038): collected error values are applied only when
the current errorType is falsy; the tier fallback synthesizes
`Failed at: <tier>` from the first failing tier when no error value exists;
an explicit STATUS column value is applied only when the current status is
falsy; otherwise the status is inferred from tier columns. -/
def applyRowES (cls : Str → Str) (cols : List Str) (cells : Str → Option Str)
    (extracted : Option Str) (a : AssetES) : AssetES :=
  let ecols := error_columns cols cls
  let scol := status_column cols cls
  let tcols := tier_columns cols cls
  let evs := error_values cells extracted ecols
  let e1 := match evs with
    | [] => a.error_type
    | v :: _ => if optFalsy a.error_type then some v else a.error_type
  let e2 := match evs with
    | [] =>
      if tcols ≠ [] ∧ optFalsy e1 = true then
        match failed_tiers cells tcols with
        | [] => e1
        | t :: _ => some ("Failed at: ".toList ++ t)
      else e1
    | _ :: _ => e1
  let s1 := match scol with
    | some c =>
      (match cells c with
       | some v => if v ≠ [] ∧ optFalsy a.status = true then some v else a.status
       | none => a.status)
    | none => a.status
  let s2 := if scol = none ∧ tcols ≠ [] ∧ optFalsy s1 = true then
      match inferTierStatus cells tcols with
      | some st => some st
      | none => s1
    else s1
  { error_type := e2, status := s2 }

/-! ## C4: set-once-then-sticky errorType and status -/

/-- C4: within one run, once an asset's errorType or status holds a
non-empty value, no later row sighting changes it: every update site
guards on the current value being falsy (None or the empty string). -/
theorem C4_error_status_sticky :
    (∀ (cls : Str → Str) (cols : List Str) (cells : Str → Option Str)
       (extracted : Option Str) (a : AssetES) (e : Str),
      a.error_type = some e → e ≠ [] →
      (applyRowES cls cols cells extracted a).error_type = some e) ∧
    (∀ (cls : Str → Str) (cols : List Str) (cells : Str → Option Str)
       (extracted : Option Str) (a : AssetES) (s : Str),
      a.status = some s → s ≠ [] →
      (applyRowES cls cols cells extracted a).status = some s) := by
  constructor
  · intro cls cols cells extracted a e ha he
    have hf : optFalsy (some e) = false := by simp [optFalsy, he]
    simp only [applyRowES]
    rcases hevs : error_values cells extracted (error_columns cols cls) with _ | ⟨v, vs⟩ <;>
      simp [hevs, hf, ha]
  · intro cls cols cells extracted a s ha hs
    have hf : optFalsy (some s) = false := by simp [optFalsy, hs]
    simp only [applyRowES]
    rcases hscol : status_column cols cls with _ | c
    · simp [hscol, hf, ha]
    · rcases hcell : cells c with _ | v
      · simp [hscol, hcell, hf, ha]
      · simp [hscol, hcell, hf, ha]

/-- C4 witness: both sticky clauses at a concrete asset whose errorType
and status are already set, with a row carrying new candidates. -/
theorem C4_error_status_sticky_witness :
    (applyRowES (fun _ => "ERROR_TYPE".toList) ["E".toList]
      (fun _ => some ("NewErr".toList)) none
      ⟨some ("Old".toList), some ("Done".toList)⟩).error_type = some ("Old".toList) ∧
    (applyRowES (fun _ => "STATUS".toList) ["S".toList]
      (fun _ => some ("NewStatus".toList)) none
      ⟨some ("Old".toList), some ("Done".toList)⟩).status = some ("Done".toList) :=
  ⟨C4_error_status_sticky.1 _ _ _ _ _ _ rfl (by decide),
   C4_error_status_sticky.2 _ _ _ _ _ _ rfl (by decide)⟩

/-! ## C9: tier-based error and status derivation -/

theorem head?_filter_eq_find? {α : Type} {p : α → Bool} :
    ∀ l : List α, (l.filter p).head? = l.find? p := by
  intro l
  induction l with
  | nil => rfl
  | cons a l ih =>
    rw [List.filter_cons]
    by_cases hp : p a = true
    · rw [if_pos hp, List.find?_cons_of_pos _ hp]
      rfl
    · rw [if_neg hp, List.find?_cons_of_neg _ hp]
      exact ih

/-- The normalized (uppercased, stripped) tier value keeps a trailing
question mark. -/
theorem stripUpper_keeps_question {v : Str} (h : v.getLast? = some '?') :
    (stripWs (upperS v)).getLast? = some '?' := by
  have hw : (upperS v).getLast? = some '?' := by
    rw [upperS, List.getLast?_map, h]
    rfl
  set w := upperS v with hwdef
  set r := w.dropWhile isWs with hrdef
  have happ : w.takeWhile isWs ++ r = w := List.takeWhile_append_dropWhile _ _
  have hrne : r ≠ [] := by
    intro hdw
    have htk : w.takeWhile isWs = w := by
      conv_rhs => rw [← happ, hdw]
      rw [List.append_nil]
    have hq : '?' ∈ w := List.mem_of_getLast?_eq_some hw
    have hws : isWs '?' = true := List.mem_takeWhile_imp (htk ▸ hq)
    exact absurd hws (by decide)
  have hrev0 : w.reverse.head? = some '?' := by
    rw [List.head?_reverse]
    exact hw
  have hsplit : w.reverse = r.reverse ++ (w.takeWhile isWs).reverse := by
    conv_lhs => rw [← happ]
    rw [List.reverse_append]
  rcases hrr : r.reverse with _ | ⟨c, t⟩
  · exact absurd (by simpa using congrArg List.reverse hrr) hrne
  · have hc : c = '?' := by
      rw [hsplit, hrr] at hrev0
      simpa using hrev0
    subst hc
    show ((r.reverse.dropWhile isWs).reverse).getLast? = some '?'
    rw [hrr, List.dropWhile_cons_of_neg (by simp [isWs]), ← hrr, List.reverse_reverse]
    rw [List.getLast?_eq_head?_reverse, hrr]
    rfl

/-- C9 counterexample: the tier value "NFF?" ends in a question mark yet
the error-derivation pass does not count it as a failure (the NFF prefix
exempts it), so no errorType is synthesized; the status-inference pass
counts the same value as a failure and sets status Failed. -/
theorem C9_nff_question_counterexample :
    (applyRowES (fun c => if c = "T1".toList then "TEST_TIER".toList else "IGNORE".toList)
      ["T1".toList] (fun c => if c = "T1".toList then some ("NFF?".toList) else none)
      none ⟨none, none⟩).error_type = none ∧
    (applyRowES (fun c => if c = "T1".toList then "TEST_TIER".toList else "IGNORE".toList)
      ["T1".toList] (fun c => if c = "T1".toList then some ("NFF?".toList) else none)
      none ⟨none, none⟩).status = some ("Failed".toList) := by
  constructor
  · decide
  · decide

/-- C9 (amended): in error derivation a tier value ending in a question
mark counts as a failure unless its normalized form begins with NFF or
NFT; the non-failures are exactly the explicit markers together with
NFF/NFT-prefixed values; when the error candidates are empty and the
current errorType is falsy, the synthesized errorType is
`Failed at: <tierName>` for the first failing tier in column order; and
when there is no STATUS column, the current status is falsy and some tier
value is non-empty, the status becomes Failed if any tier value is a
status-failure (exact markers only), else Passed if any is a pass marker,
else Not Run. -/
theorem C9_tier_error_status :
    (∀ v : Str, v.getLast? = some '?' →
      ("NFF".toList).isPrefixOf (stripWs (upperS v)) = false →
      ("NFT".toList).isPrefixOf (stripWs (upperS v)) = false →
      tierFailVal v = true) ∧
    (∀ v : Str, tierFailVal v = false ↔
      (stripWs (upperS v) ∈ (["PASS", "PASSED", "NFF", "NFT", "NOT RUN",
        "N/A", "NA", ""]).map String.toList ∨
       ("NFF".toList).isPrefixOf (stripWs (upperS v)) = true ∨
       ("NFT".toList).isPrefixOf (stripWs (upperS v)) = true)) ∧
    (∀ (cls : Str → Str) (cols : List Str) (cells : Str → Option Str)
       (a : AssetES) (t : Str),
      error_values cells none (error_columns cols cls) = [] →
      optFalsy a.error_type = true →
      (tier_columns cols cls).find? (tierCellFails cells) = some t →
      (applyRowES cls cols cells none a).error_type =
        some ("Failed at: ".toList ++ t)) ∧
    (∀ (cls : Str → Str) (cols : List Str) (cells : Str → Option Str)
       (extracted : Option Str) (a : AssetES),
      status_column cols cls = none →
      optFalsy a.status = true →
      tierVals cells (tier_columns cols cls) ≠ [] →
      (applyRowES cls cols cells extracted a).status =
        (if (tierVals cells (tier_columns cols cls)).any tierStatusFailVal then
          some ("Failed".toList)
         else if (tierVals cells (tier_columns cols cls)).any tierPassVal then
          some ("Passed".toList)
         else some ("Not Run".toList))) := by
  refine ⟨?_, ?_, ?_, ?_⟩
  · intro v hlast hnff hnft
    have hq := stripUpper_keeps_question hlast
    unfold tierFailVal
    rw [hnff, hnft]
    have hmarker : (((["PASS", "PASSED", "NFF", "NFT", "NOT RUN", "N/A", "NA",
        ""]).map String.toList).any fun m => decide (stripWs (upperS v) = m)) = false := by
      rw [List.any_eq_false]
      intro m hm
      simp only [decide_eq_true_eq]
      intro e
      rw [e] at hq
      fin_cases hm <;> simp_all
    rw [hmarker]
    rfl
  · intro v
    unfold tierFailVal
    constructor
    · intro h
      rcases hany : (((["PASS", "PASSED", "NFF", "NFT", "NOT RUN", "N/A", "NA",
          ""]).map String.toList).any fun m => decide (stripWs (upperS v) = m)) with _ | _
      · rw [hany] at h
        simp only [Bool.not_false, Bool.true_and, Bool.and_eq_false_iff,
          Bool.not_eq_false'] at h
        rcases h with h | h
        · exact Or.inr (Or.inl h)
        · exact Or.inr (Or.inr h)
      · obtain ⟨m, hm, he⟩ := List.any_eq_true.mp hany
        exact Or.inl (by simp only [decide_eq_true_eq] at he; rw [he]; exact hm)
    · intro h
      rcases h with h | h | h
      · have : (((["PASS", "PASSED", "NFF", "NFT", "NOT RUN", "N/A", "NA",
            ""]).map String.toList).any fun m => decide (stripWs (upperS v) = m)) = true :=
          List.any_eq_true.mpr ⟨_, h, by simp⟩
        rw [this]
        rfl
      · rw [h]
        simp
      · rw [h]
        simp
  · intro cls cols cells a t hevs hfalsy hfind
    have htmem : t ∈ tier_columns cols cls := List.mem_of_find?_eq_some hfind
    have htne : tier_columns cols cls ≠ [] := by
      intro h
      rw [h] at htmem
      simp at htmem
    have hft : failed_tiers cells (tier_columns cols cls) =
        t :: (failed_tiers cells (tier_columns cols cls)).tail := by
      have hh : (failed_tiers cells (tier_columns cols cls)).head? = some t := by
        unfold failed_tiers
        rw [head?_filter_eq_find?]
        exact hfind
      rcases hl : failed_tiers cells (tier_columns cols cls) with _ | ⟨x, xs⟩
      · rw [hl] at hh
        simp at hh
      · rw [hl] at hh
        simp only [List.head?_cons, Option.some.injEq] at hh
        simp [hh]
    simp only [applyRowES, hevs]
    rw [if_pos ⟨htne, hfalsy⟩, hft]
  · intro cls cols cells extracted a hscol hfalsy hvals
    have htne : tier_columns cols cls ≠ [] := by
      intro h
      unfold tierVals at hvals
      rw [h] at hvals
      simp at hvals
    have hinf : inferTierStatus cells (tier_columns cols cls) =
        (if (tierVals cells (tier_columns cols cls)).any tierStatusFailVal then
          some ("Failed".toList)
         else if (tierVals cells (tier_columns cols cls)).any tierPassVal then
          some ("Passed".toList)
         else some ("Not Run".toList)) := by
      unfold inferTierStatus
      rw [if_neg hvals]
    simp only [applyRowES, hscol]
    rw [if_pos ⟨trivial, htne, hfalsy⟩, hinf]
    by_cases h1 : (tierVals cells (tier_columns cols cls)).any tierStatusFailVal = true
    · simp [h1]
    · by_cases h2 : (tierVals cells (tier_columns cols cls)).any tierPassVal = true
      · simp [h1, h2]
      · simp [h1, h2]

/-- C9 witness: the amended clauses evaluated concretely — "PASS?" fails,
"NFF - retest" does not; a failing first tier synthesizes the errorType;
and a pass-marker row infers status Passed. -/
theorem C9_tier_error_status_witness :
    tierFailVal ("PASS?".toList) = true ∧
    (tierFailVal ("NFF - retest".toList) = false) ∧
    (applyRowES (fun c => if c = "T1".toList then "TEST_TIER".toList else "IGNORE".toList)
      ["T1".toList] (fun c => if c = "T1".toList then some ("Hang".toList) else none)
      none ⟨none, none⟩).error_type = some ("Failed at: ".toList ++ "T1".toList) ∧
    (applyRowES (fun c => if c = "T1".toList then "TEST_TIER".toList else "IGNORE".toList)
      ["T1".toList] (fun c => if c = "T1".toList then some ("PASS".toList) else none)
      none ⟨none, none⟩).status =
      (if (tierVals (fun c => if c = "T1".toList then some ("PASS".toList) else none)
          (tier_columns ["T1".toList] (fun c => if c = "T1".toList then "TEST_TIER".toList
            else "IGNORE".toList))).any tierStatusFailVal then some ("Failed".toList)
       else if (tierVals (fun c => if c = "T1".toList then some ("PASS".toList) else none)
          (tier_columns ["T1".toList] (fun c => if c = "T1".toList then "TEST_TIER".toList
            else "IGNORE".toList))).any tierPassVal then some ("Passed".toList)
       else some ("Not Run".toList)) :=
  ⟨C9_tier_error_status.1 ("PASS?".toList) (by decide) (by decide) (by decide),
   (C9_tier_error_status.2.1 ("NFF - retest".toList)).mpr (by decide),
   C9_tier_error_status.2.2.1 _ _ _ _ ("T1".toList) (by decide) (by decide) (by decide),
   C9_tier_error_status.2.2.2 _ _ _ none _ (by decide) (by decide) (by decide)⟩

/-! ## Component redistribution (parser.py lines 1122-1180)

The raw data of a record is modelled by value: the Python code stores the
nested `component_data` dicts by reference, but nothing mutates them after
the copy, so value semantics coincide for every observable result.  The
special `_components` list (a list of dicts, not a string field) is
modelled as a separate `comps` slot; its key starts with an underscore and
is therefore invisible to both the merge lookup and the component-field
scan. -/

/-- The raw data of a record: string fields plus the nested
`_components` entries. -/
inductive RawData where
  | mk (fields : List (Str × Str)) (comps : List (Str × RawData))

def RawData.fields : RawData → List (Str × Str)
  | .mk f _ => f

def RawData.comps : RawData → List (Str × RawData)
  | .mk _ c => c

/-- A `CanonicalAsset` under construction. -/
structure Asset where
  error_type : Option Str
  status : Option Str
  raw : RawData

/-- The identity → record accumulator (a Python dict in insertion order). -/
abbrev AssetMap := List (Str × Asset)

def lookupKV {α : Type} (m : List (Str × α)) (k : Str) : Option α :=
  (m.find? fun kv => decide (kv.1 = k)).map (·.2)

def eraseKeyKV {α : Type} (m : List (Str × α)) (k : Str) : List (Str × α) :=
  m.filter fun kv => decide (kv.1 ≠ k)

/-- The component-field scan (parser.py lines 1131-1135): the first field
whose key does not start with an underscore and contains "component". -/
def componentField : List (Str × Str) → Option (Str × Str)
  | [] => none
  | (k, v) :: rest =>
    if !startsUnderscore k && containsSub ("component".toList) (lowerS k) then some (k, v)
    else componentField rest

/-- The character class of `re.findall(r'[A-Za-z0-9_\-]{8,}', ...)`. -/
def isTokenChar (c : Char) : Bool := isAlnumC c || c = '_' || c = '-'

/-- `re.findall(r'[A-Za-z0-9_\-]{8,}', value)`: maximal runs of token
characters of length at least 8 (parser.py line 1141). -/
def componentTokens (v : Str) : List Str :=
  (maximalRuns isTokenChar v).filter fun t => decide (8 ≤ t.length)

/-- The parent serials referenced by one record (parser.py lines
1137-1150): the tokens of its component field that are existing keys other
than the record itself. -/
def parentsOf (sn : Str) (fields : List (Str × Str)) (keys : List Str) : List Str :=
  match componentField fields with
  | none => []
  | some kv =>
    if kv.2 = [] then []
    else (componentTokens kv.2).filter fun t => decide (t ∈ keys) && decide (t ≠ sn)

/-- The component → parents map built by the detection loop
(parser.py lines 1127-1150), in accumulator order. -/
def detectComponents (m : AssetMap) : List (Str × List Str) :=
  m.filterMap fun kv =>
    let ps := parentsOf kv.1 kv.2.raw.fields (m.map Prod.fst)
    if ps = [] then none else some (kv.1, ps)

def addComp (d : RawData) (csn : Str) (cd : RawData) : RawData :=
  .mk d.fields (d.comps ++ [(csn, cd)])

/-- Copy a component into one parent, when that parent still exists
(parser.py lines 1162-1173). -/
def updateParent (m : AssetMap) (p csn : Str) (cd : RawData) : AssetMap :=
  m.map fun kv =>
    if kv.1 = p then (kv.1, { kv.2 with raw := addComp kv.2.raw csn cd }) else kv

/-- One entry of the redistribution loop (parser.py lines 1154-1176): if
the component still exists, copy its raw data into every surviving parent
and delete the component from the accumulator. -/
def redistStep (m : AssetMap) (e : Str × List Str) : AssetMap :=
  match lookupKV m e.1 with
  | none => m
  | some crec =>
    eraseKeyKV (e.2.foldl (fun acc p => updateParent acc p e.1 crec.raw) m) e.1

/-- The whole component-redistribution pass. -/
def redistributeComponents (m : AssetMap) : AssetMap :=
  (detectComponents m).foldl redistStep m

/-! ## Redistribution lemmas (C7) -/

theorem lookupKV_of_mem {α : Type} {m : List (Str × α)} {k : Str} {v : α}
    (hnodup : (m.map Prod.fst).Nodup) (hmem : (k, v) ∈ m) : lookupKV m k = some v := by
  induction m with
  | nil => simp at hmem
  | cons kv0 r ih =>
    rw [List.map_cons, List.nodup_cons] at hnodup
    obtain ⟨hhead, htail⟩ := hnodup
    rcases List.mem_cons.mp hmem with heq | hmem2
    · subst heq
      unfold lookupKV
      rw [List.find?_cons_of_pos _ (by simp)]
      rfl
    · have hne : kv0.1 ≠ k := by
        intro e
        apply hhead
        rw [e]
        exact List.mem_map_of_mem _ hmem2
      unfold lookupKV
      rw [List.find?_cons_of_neg _ (by simp [hne])]
      exact ih htail hmem2

theorem mem_of_lookupKV {α : Type} {m : List (Str × α)} {k : Str} {v : α}
    (h : lookupKV m k = some v) : (k, v) ∈ m := by
  unfold lookupKV at h
  rcases hf : m.find? fun kv => decide (kv.1 = k) with _ | kv0
  · rw [hf] at h
    simp at h
  · rw [hf] at h
    have hm := List.mem_of_find?_eq_some hf
    have hp := List.find?_some hf
    simp only [decide_eq_true_eq] at hp
    obtain rfl : kv0.2 = v := by simpa using h
    rw [← hp]
    exact hm

theorem lookupKV_none_iff {α : Type} {m : List (Str × α)} {k : Str} :
    lookupKV m k = none ↔ k ∉ m.map Prod.fst := by
  unfold lookupKV
  rcases hf : m.find? fun kv => decide (kv.1 = k) with _ | kv0
  · rw [hf]
    rw [List.find?_eq_none] at hf
    simp only [Option.map_none']
    constructor
    · intro _ hk
      obtain ⟨kv, hkv, he⟩ := List.mem_map.mp hk
      exact hf kv hkv (by simp [he])
    · intro _
      trivial
  · rw [hf]
    have hm := List.mem_of_find?_eq_some hf
    have hp := List.find?_some hf
    simp only [decide_eq_true_eq] at hp
    simp only [Option.map_some']
    constructor
    · intro h
      simp at h
    · intro hk
      exact absurd (hp ▸ List.mem_map_of_mem _ hm) hk

theorem fields_addComp (d : RawData) (csn : Str) (cd : RawData) :
    (addComp d csn cd).fields = d.fields := rfl

theorem updateParent_keys (m : AssetMap) (p csn : Str) (cd : RawData) :
    (updateParent m p csn cd).map Prod.fst = m.map Prod.fst := by
  unfold updateParent
  rw [List.map_map]
  apply List.map_congr_left
  intro kv _
  by_cases h : kv.1 = p <;> simp [h]

theorem lookupKV_updateParent_fields (m : AssetMap) (p csn : Str) (cd : RawData)
    (s : Str) :
    (lookupKV (updateParent m p csn cd) s).map (fun a => a.raw.fields) =
      (lookupKV m s).map (fun a => a.raw.fields) := by
  induction m with
  | nil => rfl
  | cons kv m ih =>
    unfold updateParent at *
    by_cases hs : kv.1 = s
    · by_cases hp : kv.1 = p
      · unfold lookupKV
        rw [List.map_cons, if_pos hp, List.find?_cons_of_pos _ (by simp [hs]),
          List.find?_cons_of_pos _ (by simp [hs])]
        simp [fields_addComp]
      · unfold lookupKV
        rw [List.map_cons, if_neg hp, List.find?_cons_of_pos _ (by simp [hs]),
          List.find?_cons_of_pos _ (by simp [hs])]
    · by_cases hp : kv.1 = p
      · unfold lookupKV
        rw [List.map_cons, if_pos hp, List.find?_cons_of_neg _ (by simp [hs]),
          List.find?_cons_of_neg _ (by simp [hs])]
        exact ih
      · unfold lookupKV
        rw [List.map_cons, if_neg hp, List.find?_cons_of_neg _ (by simp [hs]),
          List.find?_cons_of_neg _ (by simp [hs])]
        exact ih

theorem foldParents_keys : ∀ (ps : List Str) (m : AssetMap) (csn : Str) (cd : RawData),
    ((ps.foldl (fun acc p => updateParent acc p csn cd) m).map Prod.fst) =
      m.map Prod.fst := by
  intro ps
  induction ps with
  | nil => intro m _ _; rfl
  | cons p ps ih =>
    intro m csn cd
    rw [List.foldl_cons, ih, updateParent_keys]

theorem foldParents_fields : ∀ (ps : List Str) (m : AssetMap) (csn : Str)
    (cd : RawData) (s : Str),
    (lookupKV (ps.foldl (fun acc p => updateParent acc p csn cd) m) s).map
        (fun a => a.raw.fields) =
      (lookupKV m s).map (fun a => a.raw.fields) := by
  intro ps
  induction ps with
  | nil => intro m _ _ _; rfl
  | cons p ps ih =>
    intro m csn cd s
    rw [List.foldl_cons, ih, lookupKV_updateParent_fields]

theorem lookupKV_eraseKey_ne {α : Type} {m : List (Str × α)} {k s : Str}
    (h : s ≠ k) : lookupKV (eraseKeyKV m k) s = lookupKV m s := by
  induction m with
  | nil => rfl
  | cons kv m ih =>
    unfold eraseKeyKV at *
    rw [List.filter_cons]
    by_cases hk : kv.1 = k
    · have hns : ¬ kv.1 = s := by rw [hk]; exact fun e => h e.symm
      rw [if_neg (by simp [hk])]
      unfold lookupKV
      rw [List.find?_cons_of_neg _ (by simp [hns])]
      exact ih
    · rw [if_pos (by simp [hk])]
      by_cases hs : kv.1 = s
      · unfold lookupKV
        rw [List.find?_cons_of_pos _ (by simp [hs]),
          List.find?_cons_of_pos _ (by simp [hs])]
      · unfold lookupKV
        rw [List.find?_cons_of_neg _ (by simp [hs]),
          List.find?_cons_of_neg _ (by simp [hs])]
        exact ih

theorem eraseKey_keys {α : Type} (m : List (Str × α)) (k : Str) :
    (eraseKeyKV m k).map Prod.fst = (m.map Prod.fst).filter fun x => decide (x ≠ k) := by
  induction m with
  | nil => rfl
  | cons kv m ih =>
    unfold eraseKeyKV at *
    rw [List.filter_cons, List.map_cons, List.filter_cons]
    by_cases hk : kv.1 = k
    · rw [if_neg (by simp [hk]), if_neg (by simp [hk])]
      exact ih
    · rw [if_pos (by simp [hk]), if_pos (by simp [hk]), List.map_cons, ih]

theorem redistStep_keys (m : AssetMap) (e : Str × List Str) :
    (redistStep m e).map Prod.fst = (m.map Prod.fst).filter fun x => decide (x ≠ e.1) := by
  unfold redistStep
  rcases hl : lookupKV m e.1 with _ | crec
  · have habs := lookupKV_none_iff.mp hl
    refine (List.filter_eq_self.mpr ?_).symm
    intro x hx
    simp only [decide_eq_true_eq]
    intro he
    exact habs (he ▸ hx)
  · rw [eraseKey_keys, foldParents_keys]

theorem fold_redist_keys : ∀ (pm : List (Str × List Str)) (m : AssetMap),
    ((pm.foldl redistStep m).map Prod.fst) =
      (m.map Prod.fst).filter fun x => decide (x ∉ pm.map Prod.fst) := by
  intro pm
  induction pm with
  | nil =>
    intro m
    refine (List.filter_eq_self.mpr ?_).symm
    intro x _
    simp
  | cons e pm ih =>
    intro m
    rw [List.foldl_cons, ih, redistStep_keys, List.filter_filter]
    apply List.filter_congr
    intro x _
    by_cases h1 : x = e.1 <;> by_cases h2 : x ∈ pm.map Prod.fst <;> simp [h1, h2]

theorem fold_redist_fields : ∀ (pm : List (Str × List Str)) (m : AssetMap) (s : Str),
    s ∉ pm.map Prod.fst →
    (lookupKV (pm.foldl redistStep m) s).map (fun a => a.raw.fields) =
      (lookupKV m s).map (fun a => a.raw.fields) := by
  intro pm
  induction pm with
  | nil => intro m s _; rfl
  | cons e pm ih =>
    intro m s hs
    have hs1 : s ≠ e.1 := by
      intro he
      exact hs (by simp [he])
    have hs2 : s ∉ pm.map Prod.fst := by
      intro hmem
      exact hs (by simp [hmem])
    have hstep : (lookupKV (redistStep m e) s).map (fun a => a.raw.fields) =
        (lookupKV m s).map (fun a => a.raw.fields) := by
      unfold redistStep
      rcases hl : lookupKV m e.1 with _ | crec
      · rfl
      · rw [lookupKV_eraseKey_ne hs1, foldParents_fields]
    rw [List.foldl_cons, ih _ _ hs2, hstep]

theorem detect_keys_iff {m : AssetMap} (hnodup : (m.map Prod.fst).Nodup)
    {s : Str} {r : Asset} (hmem : (s, r) ∈ m) :
    s ∈ (detectComponents m).map Prod.fst ↔
      parentsOf s r.raw.fields (m.map Prod.fst) ≠ [] := by
  constructor
  · intro h
    obtain ⟨e, he, he1⟩ := List.mem_map.mp h
    obtain ⟨kv, hkv, hf⟩ := List.mem_filterMap.mp he
    simp only at hf
    split at hf
    · simp at hf
    · rename_i hne
      obtain rfl : e = (kv.1, parentsOf kv.1 kv.2.raw.fields (m.map Prod.fst)) := by
        simp_all
      obtain rfl : kv.1 = s := he1
      have hkv2 : kv.2 = r := by
        have h1 := lookupKV_of_mem hnodup hmem
        have h2 := lookupKV_of_mem hnodup (by simpa using hkv : (kv.1, kv.2) ∈ m)
        rw [h1] at h2
        exact (by simpa using h2 : r = kv.2).symm
      rw [← hkv2]
      exact hne
  · intro h
    refine List.mem_map.mpr ⟨(s, parentsOf s r.raw.fields (m.map Prod.fst)),
      List.mem_filterMap.mpr ⟨(s, r), hmem, ?_⟩, rfl⟩
    simp only
    rw [if_neg h]

theorem parentsOf_mono {sn : Str} {fields : List (Str × Str)} {ks1 ks2 : List Str}
    (hsub : ∀ x ∈ ks1, x ∈ ks2)
    (h : parentsOf sn fields ks2 = []) : parentsOf sn fields ks1 = [] := by
  unfold parentsOf at h ⊢
  rcases hcf : componentField fields with _ | kv
  · simp only [hcf]
  · simp only [hcf] at h ⊢
    by_cases hv : kv.2 = []
    · rw [if_pos hv]
    · rw [if_neg hv] at h
      rw [if_neg hv]
      rw [List.filter_eq_nil_iff] at h
      rw [List.filter_eq_nil_iff]
      intro t ht
      have := h t ht
      simp only [Bool.and_eq_true, decide_eq_true_eq, not_and] at this
      simp only [Bool.and_eq_true, decide_eq_true_eq, not_and]
      intro h1 h2
      exact this (hsub t h1) h2

/-- C7: component redistribution is idempotent (applying the pass twice
equals applying it once), and every identity detected as a component is
absent from the top-level set after one application. -/
theorem C7_redistribution_idempotent :
    ∀ m : AssetMap, (m.map Prod.fst).Nodup →
      redistributeComponents (redistributeComponents m) = redistributeComponents m ∧
      (∀ c ∈ (detectComponents m).map Prod.fst,
        c ∉ (redistributeComponents m).map Prod.fst) := by
  intro m hnodup
  have hkeys : (redistributeComponents m).map Prod.fst =
      (m.map Prod.fst).filter fun x =>
        decide (x ∉ (detectComponents m).map Prod.fst) :=
    fold_redist_keys _ _
  have habsent : ∀ c ∈ (detectComponents m).map Prod.fst,
      c ∉ (redistributeComponents m).map Prod.fst := by
    intro c hc hmem
    rw [hkeys] at hmem
    have := (List.mem_filter.mp hmem).2
    simp only [decide_eq_true_eq] at this
    exact this hc
  refine ⟨?_, habsent⟩
  have hnodup2 : ((redistributeComponents m).map Prod.fst).Nodup := by
    rw [hkeys]
    exact hnodup.filter _
  have hdet : detectComponents (redistributeComponents m) = [] := by
    rw [detectComponents, List.filterMap_eq_nil_iff]
    intro kv hkv
    obtain ⟨k, a⟩ := kv
    have hk2 : k ∈ (redistributeComponents m).map Prod.fst :=
      List.mem_map.mpr ⟨(k, a), hkv, rfl⟩
    have hkf := hk2
    rw [hkeys] at hkf
    obtain ⟨hkm, hdk⟩ := List.mem_filter.mp hkf
    have hnotpm : k ∉ (detectComponents m).map Prod.fst := by simpa using hdk
    have hlook2 : lookupKV (redistributeComponents m) k = some a :=
      lookupKV_of_mem hnodup2 hkv
    have hfields := fold_redist_fields (detectComponents m) m k hnotpm
    rw [show (detectComponents m).foldl redistStep m = redistributeComponents m from rfl,
      hlook2] at hfields
    rcases hl0 : lookupKV m k with _ | r0
    · rw [hl0] at hfields
      simp at hfields
    · rw [hl0] at hfields
      have hfe : a.raw.fields = r0.raw.fields := by simpa using hfields
      have hr0mem : (k, r0) ∈ m := mem_of_lookupKV hl0
      have hps : parentsOf k r0.raw.fields (m.map Prod.fst) = [] := by
        by_contra hne
        exact hnotpm ((detect_keys_iff hnodup hr0mem).mpr hne)
      have hps2 : parentsOf k a.raw.fields
          ((redistributeComponents m).map Prod.fst) = [] := by
        rw [hfe]
        refine parentsOf_mono ?_ hps
        intro x hx
        rw [hkeys] at hx
        exact (List.mem_filter.mp hx).1
      simp only
      rw [if_pos hps2]
  show (detectComponents (redistributeComponents m)).foldl redistStep
      (redistributeComponents m) = redistributeComponents m
  rw [hdet]
  rfl

/-- C7 witness: a concrete two-asset map where the second asset's
Component field names the first: after one pass the component is folded
into the parent and gone from the top level, and a second pass changes
nothing. -/
theorem C7_redistribution_witness :
    redistributeComponents (redistributeComponents
      [(("9AAAA000PARENT".toList),
        ⟨none, none, RawData.mk [] []⟩),
       (("9AAAA000CHILD1".toList),
        ⟨none, none, RawData.mk [("Component".toList, "9AAAA000PARENT".toList)] []⟩)]) =
      redistributeComponents
      [(("9AAAA000PARENT".toList),
        ⟨none, none, RawData.mk [] []⟩),
       (("9AAAA000CHILD1".toList),
        ⟨none, none, RawData.mk [("Component".toList, "9AAAA000PARENT".toList)] []⟩)] ∧
    ("9AAAA000CHILD1".toList) ∉ (redistributeComponents
      [(("9AAAA000PARENT".toList),
        ⟨none, none, RawData.mk [] []⟩),
       (("9AAAA000CHILD1".toList),
        ⟨none, none, RawData.mk [("Component".toList, "9AAAA000PARENT".toList)] []⟩)]).map
      Prod.fst := by
  have h := C7_redistribution_idempotent
    [(("9AAAA000PARENT".toList),
      ⟨none, none, RawData.mk [] []⟩),
     (("9AAAA000CHILD1".toList),
      ⟨none, none, RawData.mk [("Component".toList, "9AAAA000PARENT".toList)] []⟩)]
    (by decide)
  exact ⟨h.1, h.2 _ (by decide)⟩

/-! ## parse_excel (parser.py lines 511-1240)

The file-level pipeline over already-read sheets.  The remote oracle is an
external collaborator (spec §1/§6): its classification result, identified
serial column and error-extraction column enter as parameters, and the
per-sheet fallback detector outcome is carried on the sheet input.  A
sheet that raises during processing is marked `throws` (the exception is
caught, parser.py lines 1078-1081).  Presentation metadata that stores
non-string values under reserved underscore keys (`_sheets_combined`,
`_error_sources`, `_diagnostic_info`, `_column_classification`, the
customer-from-filename backfill) and the post-run Nabu error-type cleaning
phase are outside the claims and omitted; underscore keys are invisible to
the merge lookup and the component scan, so they do not affect any
verified behaviour. -/

structure RowIn where
  idx : Nat
  cells : Str → Option Str

structure SheetIn where
  name : Str
  throws : Bool
  cols : List Str
  detectedCol : Option Str
  rows : List RowIn

/-- `is_legend_or_reference_row` (parser.py lines 47-63). -/
def is_legend_or_reference_row (serial : Str) : Bool :=
  if serial = [] then false
  else anyKw ((["key", "label", "legend", "reference", "note", "color",
    "prom", "degradation", "cov_", "nff", "esc",
    "description", "definition", "explanation"]).map String.toList)
    (stripWs (lowerS serial))

/-- Multi-line cells keep only the first line (parser.py lines 865-866). -/
def firstLineStripped (s : Str) : Str :=
  if '\n' ∈ s then stripWs (s.takeWhile fun c => decide (c ≠ '\n')) else s

/-- Python `str(cell)`: a missing (NaN) cell prints as "nan". -/
def strOfCell : Option Str → Str
  | none => "nan".toList
  | some v => v

/-- The serial resolution for one row (parser.py lines 861-875): strip,
first line, scored extraction, then the flexible validator as fallback.
Returns the processed cell text and the resolved serial. -/
def resolveSerial (rawCell : Option Str) : Str × Option Str :=
  let raw1 := firstLineStripped (stripWs (strOfCell rawCell))
  let s? := match extract_best_serial_from_text raw1 with
    | some s => some s
    | none => if raw1 ≠ [] ∧ is_valid_amd_cpu_serial raw1 = true then some raw1 else none
  (raw1, s?)

/-- The header-as-data filter (parser.py lines 906-911). -/
def headerLike (s : Str) : Bool :=
  (anyKw ((["cpusn", "cpu0sn", "cpu1sn", "serialnumber", "serial",
    "barcode", "ppid", "systemsn", "rma", "assetid"]).map String.toList)
    ((lowerS s).filter fun c => decide (c ≠ ' ') && decide (c ≠ '_'))) &&
  decide (s.length < 20)

/-- The row-acceptance chain for a resolved serial
(parser.py lines 891-911). -/
def serialAccepted (s : Str) : Bool :=
  decide (s ≠ []) &&
  !(((["nan", "none", "", "null", "nat", "n/a", "na", "tbd", "tbc"]).map
      String.toList).any fun x => decide (lowerS s = x)) &&
  !(is_legend_or_reference_row s) &&
  is_valid_amd_cpu_serial s &&
  !(headerLike s)

/-- Python `str.replace(pat, '')` for a non-empty pattern, by fuel over the
string length (left-to-right, non-overlapping). -/
def replaceAllGo (pat : Str) : Nat → Str → Str
  | _, [] => []
  | 0, s => s
  | fuel + 1, c :: rest =>
    if pat.isPrefixOf (c :: rest) then replaceAllGo pat fuel (rest.drop (pat.length - 1))
    else c :: replaceAllGo pat fuel rest

def replaceAll (s pat : Str) : Str :=
  if pat = [] then s else replaceAllGo pat s.length s

/-- The punctuation class `[,\s\-_:;]` of the error-text cleanup. -/
def punctTrim (c : Char) : Bool :=
  c = ',' || isWs c || c = '-' || c = '_' || c = ':' || c = ';'

/-- Error text extracted from the identity cell (parser.py lines 878-888):
remove the serial, strip, trim leading/trailing punctuation, keep only a
meaningful remainder. -/
def extractErrorText (raw s : Str) : Option Str :=
  let t0 := stripWs (replaceAll raw s)
  let t1 := (((t0.dropWhile punctTrim).reverse).dropWhile punctTrim).reverse
  if t1 ≠ [] ∧ 3 < t1.length then some t1 else none

/-- The fields of one row, in column order, missing cells skipped
(the merge loop of parser.py lines 1042-1076 consumes these). -/
def rowFields (cols : List Str) (cells : Str → Option Str) : FieldMap :=
  cols.filterMap fun c => (cells c).map fun v => (c, v)

/-- The provenance metadata seeded on first sighting
(parser.py lines 916-921). -/
def initMeta (fname sheetName : Str) (rowIdx : Nat) (serialCol : Str) : FieldMap :=
  [("_source_filename".toList, fname),
   ("_source_sheet".toList, sheetName),
   ("_source_row".toList, (Nat.repr (rowIdx + 2)).toList),
   ("_serial_column".toList, serialCol)]

/-- One row of the second pass (parser.py lines 859-1076): resolve and
validate the serial, create or fetch the asset, update errorType/status,
merge the raw fields. -/
def processRow (cls : Str → Str) (cols : List Str) (aiErrCol : Option Str)
    (serialCol : Str) (fname sheetName : Str) (m : AssetMap) (row : RowIn) : AssetMap :=
  let rs := resolveSerial (row.cells serialCol)
  match rs.2 with
  | none => m
  | some s =>
    if serialAccepted s = false then m
    else
      let extracted := if aiErrCol = some serialCol then extractErrorText rs.1 s else none
      let rec0 := match lookupKV m s with
        | some r => r
        | none => ⟨none, none, RawData.mk (initMeta fname sheetName row.idx serialCol) []⟩
      let es := applyRowES cls cols row.cells extracted ⟨rec0.error_type, rec0.status⟩
      let newFields := mergeRow cls rec0.raw.fields (rowFields cols row.cells)
      let rec1 : Asset := ⟨es.error_type, es.status, RawData.mk newFields rec0.raw.comps⟩
      match lookupKV m s with
      | some _ => m.map fun kv => if kv.1 = s then (kv.1, rec1) else kv
      | none => m ++ [(s, rec1)]

/-- One sheet of the second pass (parser.py lines 696-1081): a processing
exception is caught (sheet contributes nothing); the name-pattern skip is
guarded by the multi-sheet condition; empty sheets and sheets above the
row ceiling are skipped; then the serial column is the oracle-identified
one when present, else the detector fallback, and without one the sheet is
skipped. -/
def processSheet (cls : Str → Str) (aiSerial aiErrCol : Option Str) (fname : Str)
    (numSheets : Nat) (m : AssetMap) (sh : SheetIn) : AssetMap :=
  if sh.throws then m
  else if sheetNameSkipped numSheets sh.name then m
  else if sh.rows.length = 0 then m
  else if MAX_SHEET_ROWS < sh.rows.length then m
  else
    let serialCol? := match aiSerial with
      | some c => if c ∈ sh.cols then some c else sh.detectedCol
      | none => sh.detectedCol
    match serialCol? with
    | none => m
    | some scol => sh.rows.foldl (processRow cls sh.cols aiErrCol scol fname sh.name) m

/-- `parse_excel` over already-read sheets (parser.py lines 511-1240):
empty sheet list returns an empty result; otherwise all sheets are folded
into the identity map, the empty map raises the input-validation error
(before redistribution), and the component redistribution runs on the
result. -/
def parse_excel (cls : Str → Str) (aiSerial aiErrCol : Option Str) (fname : Str)
    (sheets : List SheetIn) : Except Str (List (Str × Asset)) :=
  if sheets.isEmpty then .ok []
  else
    let m := sheets.foldl (processSheet cls aiSerial aiErrCol fname sheets.length) []
    if m.isEmpty then
      .error ("Could not detect serial number columns in any sheet.".toList)
    else
      .ok (redistributeComponents m)

/-! ## Propagation lemmas (C8) -/

theorem processRow_length (cls : Str → Str) (cols : List Str) (aiErrCol : Option Str)
    (serialCol fname sheetName : Str) (m : AssetMap) (row : RowIn) :
    m.length ≤ (processRow cls cols aiErrCol serialCol fname sheetName m row).length := by
  unfold processRow
  rcases hrs : (resolveSerial (row.cells serialCol)).2 with _ | s
  · simp [hrs]
  · simp only [hrs]
    by_cases hacc : serialAccepted s = false
    · rw [if_pos hacc]
    · rw [if_neg hacc]
      rcases hl : lookupKV m s with _ | r <;> simp [hl]

theorem foldRows_length (cls : Str → Str) (cols : List Str) (aiErrCol : Option Str)
    (serialCol fname sheetName : Str) :
    ∀ (rows : List RowIn) (m : AssetMap),
      m.length ≤ (rows.foldl (processRow cls cols aiErrCol serialCol fname sheetName) m).length := by
  intro rows
  induction rows with
  | nil => intro m; exact Nat.le_refl _
  | cons row rows ih =>
    intro m
    rw [List.foldl_cons]
    exact Nat.le_trans (processRow_length _ _ _ _ _ _ m row) (ih _)

theorem processSheet_length (cls : Str → Str) (aiSerial aiErrCol : Option Str)
    (fname : Str) (numSheets : Nat) (m : AssetMap) (sh : SheetIn) :
    m.length ≤ (processSheet cls aiSerial aiErrCol fname numSheets m sh).length := by
  unfold processSheet
  by_cases h1 : sh.throws = true
  · rw [if_pos h1]
  · rw [if_neg h1]
    by_cases h2 : sheetNameSkipped numSheets sh.name = true
    · rw [if_pos h2]
    · rw [if_neg h2]
      by_cases h3 : sh.rows.length = 0
      · rw [if_pos h3]
      · rw [if_neg h3]
        by_cases h4 : MAX_SHEET_ROWS < sh.rows.length
        · rw [if_pos h4]
        · rw [if_neg h4]
          rcases hsc : (match aiSerial with
            | some c => if c ∈ sh.cols then some c else sh.detectedCol
            | none => sh.detectedCol : Option Str) with _ | scol
          · simp only [hsc]
            exact Nat.le_refl _
          · simp only [hsc]
            exact foldRows_length _ _ _ _ _ _ _ _

theorem processSheet_ne_nil (cls : Str → Str) (aiSerial aiErrCol : Option Str)
    (fname : Str) (numSheets : Nat) {m : AssetMap} (hm : m ≠ []) (sh : SheetIn) :
    processSheet cls aiSerial aiErrCol fname numSheets m sh ≠ [] := by
  have h1 : 0 < m.length := List.length_pos.mpr hm
  have h2 := processSheet_length cls aiSerial aiErrCol fname numSheets m sh
  exact List.ne_nil_of_length_pos (by omega)

theorem foldSheets_ne_nil (cls : Str → Str) (aiSerial aiErrCol : Option Str)
    (fname : Str) (numSheets : Nat) :
    ∀ (shs : List SheetIn) (acc : AssetMap),
      (acc ≠ [] ∨ ∃ sh ∈ shs,
        processSheet cls aiSerial aiErrCol fname numSheets [] sh ≠ []) →
      shs.foldl (processSheet cls aiSerial aiErrCol fname numSheets) acc ≠ [] := by
  intro shs
  induction shs with
  | nil =>
    intro acc h
    rcases h with h | ⟨sh, hmem, _⟩
    · exact h
    · simp at hmem
  | cons sh0 shs ih =>
    intro acc h
    rw [List.foldl_cons]
    rcases h with h | ⟨sh, hmem, hne⟩
    · exact ih _ (Or.inl (processSheet_ne_nil _ _ _ _ _ h _))
    · rcases List.mem_cons.mp hmem with rfl | hmem2
      · rcases hacc : acc with _ | ⟨kv, acc2⟩
        · exact ih _ (Or.inl hne)
        · exact ih _ (Or.inl (processSheet_ne_nil _ _ _ _ _ (by simp) _))
      · exact ih _ (Or.inr ⟨sh, hmem2, hne⟩)

/-- C8 counterexample: a file with no sheets produces zero canonical
assets yet returns an empty result without raising, so the error is not
raised exactly when zero assets are produced. -/
theorem C8_empty_file_counterexample :
    parse_excel (fun _ => "IGNORE".toList) none none ("f.xlsx".toList) [] =
      Except.ok [] := rfl

/-- C8 (amended): parse_excel raises the input-validation error exactly
when the file has at least one sheet and the sheet-processing pass
produces zero canonical assets (a file with no sheets returns an empty
list without raising); a sheet-level exception is caught and the remaining
sheets still processed, so a file where some sheet yields a record on its
own never raises. -/
theorem C8_error_exactly_when_no_assets :
    (∀ (cls : Str → Str) (aiS aiE : Option Str) (fname : Str) (sheets : List SheetIn),
      (∃ e, parse_excel cls aiS aiE fname sheets = .error e) ↔
        (sheets ≠ [] ∧
          sheets.foldl (processSheet cls aiS aiE fname sheets.length) [] = [])) ∧
    (∀ (cls : Str → Str) (aiS aiE : Option Str) (fname : Str) (sheets : List SheetIn)
       (sh : SheetIn), sh ∈ sheets →
      processSheet cls aiS aiE fname sheets.length [] sh ≠ [] →
      ∀ e, parse_excel cls aiS aiE fname sheets ≠ .error e) := by
  constructor
  · intro cls aiS aiE fname sheets
    unfold parse_excel
    rcases hs : sheets with _ | ⟨sh0, rest⟩
    · simp
    · simp only [List.isEmpty_cons, Bool.false_eq_true, if_false]
      rcases hm : (sh0 :: rest).foldl
          (processSheet cls aiS aiE fname (sh0 :: rest).length) [] with _ | ⟨kv, m2⟩
      · simp [hm]
      · simp [hm]
  · intro cls aiS aiE fname sheets sh hmem hne e
    have hs : sheets ≠ [] := by
      rintro rfl
      simp at hmem
    have hfold := foldSheets_ne_nil cls aiS aiE fname sheets.length sheets []
      (Or.inr ⟨sh, hmem, hne⟩)
    unfold parse_excel
    have hie : sheets.isEmpty = false := by
      rcases sheets with _ | _
      · exact absurd rfl hs
      · rfl
    rw [hie]
    simp only [Bool.false_eq_true, if_false]
    have hie2 : (sheets.foldl (processSheet cls aiS aiE fname sheets.length) []).isEmpty
        = false := by
      rcases hf : sheets.foldl (processSheet cls aiS aiE fname sheets.length) [] with _ | _
      · exact absurd hf hfold
      · rfl
    rw [hie2]
    simp

/-- C8 witness: a two-sheet file whose first sheet throws and whose second
sheet yields one record does not raise the input-validation error. -/
theorem C8_graceful_witness :
    parse_excel (fun _ => "IGNORE".toList) (some ("CPU_SN".toList)) none
      ("f.xlsx".toList)
      [⟨"Bad".toList, true, [], none, []⟩,
       ⟨"Sheet1".toList, false, ["CPU_SN".toList], none,
        [⟨0, fun c => if c = "CPU_SN".toList then
            some ("9ABCDEF01234_100-000000001463".toList) else none⟩]⟩] ≠
      Except.error ("Could not detect serial number columns in any sheet.".toList) :=
  C8_error_exactly_when_no_assets.2 _ _ _ _ _
    ⟨"Sheet1".toList, false, ["CPU_SN".toList], none,
      [⟨0, fun c => if c = "CPU_SN".toList then
          some ("9ABCDEF01234_100-000000001463".toList) else none⟩]⟩
    (List.mem_cons_of_mem _ (List.mem_cons_self _ _))
    (by
      intro h
      have hlen := congrArg List.length h
      rw [show (processSheet (fun _ => "IGNORE".toList) (some ("CPU_SN".toList))
          none ("f.xlsx".toList)
          ([⟨"Bad".toList, true, [], none, []⟩,
            ⟨"Sheet1".toList, false, ["CPU_SN".toList], none,
              [⟨0, fun c => if c = "CPU_SN".toList then
                  some ("9ABCDEF01234_100-000000001463".toList) else none⟩]⟩] :
            List SheetIn).length []
          ⟨"Sheet1".toList, false, ["CPU_SN".toList], none,
            [⟨0, fun c => if c = "CPU_SN".toList then
                some ("9ABCDEF01234_100-000000001463".toList) else none⟩]⟩).length = 1
        from rfl] at hlen
      simp at hlen)
    _

end SiliconTrace
